import Mathlib

/-!
Verification of the layout/index conversion layer of gonum/netlib.

The embedding models Go slices of `float64` as `List α` (the element type is
kept abstract: the converters only move values around).  A Go slice access
`a[i]` panics when `i` is negative or not less than the length; this is
modelled by `Option`: a conversion routine returns `none` exactly when one of
its slice accesses would panic.  Go `int` arithmetic is modelled by `ℤ`
(no intermediate expression here can overflow 64-bit in the regimes the
theorems quantify over, and index arithmetic on ℤ is the mathematical
content).  Each converter is written as the same nested loops as the Go
source, a loop `for k := lo; k < hi; k++` becoming a fold over
`irange lo hi`, and the loop body `b[dst] = a[src]` becoming `copyStep`.

Sources embedded:
  * `lapack/lapacke/internal/conv/pb.go`: `DpbToColMajor`, `DpbToRowMajor`
  * `lapack/lapacke/internal/conv/conv.go`: `min`, `max` (Lean's `min`/`max`
    on ℤ coincide with these)
  * `lapack/netlib` conversion file: `convDpbToLapacke`, `convDpbToGonum`
  * `lapack/netlib` `Dgeqp3`/`Dpstrf`: the pivot-vector index-base shifts
-/

namespace Netlib

/-- The index sequence of a Go loop `for k := lo; k < hi; k++`. -/
def irange (lo hi : ℤ) : List ℤ :=
  (List.range (hi - lo).toNat).map fun k : ℕ => lo + (k : ℤ)

/-- Reading `a[i]` from a Go slice; `none` models the out-of-range panic. -/
def rd {α : Type*} (a : List α) (i : ℤ) : Option α :=
  if 0 ≤ i then a[i.toNat]? else none

/-- Writing `b[i] = v` to a Go slice; `none` models the out-of-range panic. -/
def wr {α : Type*} (b : List α) (i : ℤ) (v : α) : Option (List α) :=
  if 0 ≤ i ∧ i.toNat < b.length then some (b.set i.toNat v) else none

/-- One loop-body statement `b[d] = a[s]`.  The state is the pair
(source slice, destination slice); only the destination is changed. -/
def copyStep {α : Type*} (st : List α × List α) (s d : ℤ) :
    Option (List α × List α) := do
  let v ← rd st.1 s
  let b ← wr st.2 d v
  pure (st.1, b)

/-- Running a sequence of copy statements `b[d] = a[s]` in order. -/
def runCopies {α : Type*} (ps : List (ℤ × ℤ)) (st : List α × List α) :
    Option (List α × List α) :=
  ps.foldlM (fun st p => copyStep st p.1 p.2) st

/-- The (source index, destination index) pairs produced by a nested band
loop: outer counter `i` over `[0, n)`, inner counter `jb` over
`[lo i, hi i)`, copying `a[sx i jb]` to `b[dx i jb]`, in loop order. -/
def bandPairs (n : ℤ) (lo hi : ℤ → ℤ) (sx dx : ℤ → ℤ → ℤ) : List (ℤ × ℤ) :=
  (irange 0 n).flatMap fun i =>
    (irange (lo i) (hi i)).map fun jb => (sx i jb, dx i jb)

/-- `gonum.org/v1/gonum/blas`: `Upper Uplo = 'U'` (an `Uplo` is a byte). -/
def blasUpper : Char := 'U'

/-- `gonum.org/v1/gonum/blas`: `Lower Uplo = 'L'`. -/
def blasLower : Char := 'L'

/-- `conv.DpbToColMajor` from `lapack/lapacke/internal/conv/pb.go`:
converts a symmetric band matrix in CBLAS row-major layout (client form)
to FORTRAN column-major layout (library form).

Go source:
```
func DpbToColMajor(uplo byte, n, kd int, a []float64, lda int, b []float64, ldb int) {
    if uplo == 'U' {
        for i := 0; i < n; i++ {
            for jb := 0; jb < min(n-i, kd+1); jb++ {
                j := i + jb // Column index in the full matrix
                b[kd-jb+j*ldb] = a[i*lda+jb]
            }
        }
    } else {
        for i := 0; i < n; i++ {
            for jb := max(0, kd-i); jb < kd+1; jb++ {
                j := i - kd + jb // Column index in the full matrix
                b[kd-jb+j*ldb] = a[i*lda+jb]
            }
        }
    }
}
```
The result is `some (final a, final b)`, or `none` on an index panic. -/
def DpbToColMajor {α : Type*} (uplo : Char) (n kd : ℤ) (a : List α) (lda : ℤ)
    (b : List α) (ldb : ℤ) : Option (List α × List α) :=
  if uplo = 'U' then
    (irange 0 n).foldlM (fun st i =>
      (irange 0 (min (n - i) (kd + 1))).foldlM (fun st jb =>
        -- j := i + jb is the column index in the full matrix
        copyStep st (i * lda + jb) (kd - jb + (i + jb) * ldb)) st) (a, b)
  else
    (irange 0 n).foldlM (fun st i =>
      (irange (max 0 (kd - i)) (kd + 1)).foldlM (fun st jb =>
        -- j := i - kd + jb is the column index in the full matrix
        copyStep st (i * lda + jb) (kd - jb + (i - kd + jb) * ldb)) st) (a, b)

/-- `conv.DpbToRowMajor` from `lapack/lapacke/internal/conv/pb.go`:
the inverse conversion to `DpbToColMajor`.

Go source:
```
func DpbToRowMajor(uplo byte, n, kd int, a []float64, lda int, b []float64, ldb int) {
    if uplo == 'U' {
        for j := 0; j < n; j++ {
            for ib := max(0, kd-j); ib < kd+1; ib++ {
                i := j - kd + ib // Row index in the full matrix
                b[i*ldb+kd-ib] = a[ib+j*lda]
            }
        }
    } else {
        for j := 0; j < n; j++ {
            for ib := 0; ib < min(n-j, kd+1); ib++ {
                i := j + ib // Row index in the full matrix
                b[i*ldb+kd-ib] = a[ib+j*lda]
            }
        }
    }
}
``` -/
def DpbToRowMajor {α : Type*} (uplo : Char) (n kd : ℤ) (a : List α) (lda : ℤ)
    (b : List α) (ldb : ℤ) : Option (List α × List α) :=
  if uplo = 'U' then
    (irange 0 n).foldlM (fun st j =>
      (irange (max 0 (kd - j)) (kd + 1)).foldlM (fun st ib =>
        -- i := j - kd + ib is the row index in the full matrix
        copyStep st (ib + j * lda) ((j - kd + ib) * ldb + kd - ib)) st) (a, b)
  else
    (irange 0 n).foldlM (fun st j =>
      (irange 0 (min (n - j) (kd + 1))).foldlM (fun st ib =>
        -- i := j + ib is the row index in the full matrix
        copyStep st (ib + j * lda) ((j + ib) * ldb + kd - ib)) st) (a, b)

/-- `convDpbToLapacke` from the `lapack/netlib` package: converts a symmetric
band matrix in CBLAS row-major layout to LAPACKE row-major
(diagonal-major) layout.

Go source:
```
func convDpbToLapacke(uplo blas.Uplo, n, kd int, a []float64, lda int, b []float64, ldb int) {
    if uplo == blas.Upper {
        for i := 0; i < n; i++ {
            for jb := 0; jb < min(n-i, kd+1); jb++ {
                j := i + jb // Column index in the full matrix
                b[(kd-jb)*ldb+j] = a[i*lda+jb]
            }
        }
    } else {
        for i := 0; i < n; i++ {
            for jb := max(0, kd-i); jb < kd+1; jb++ {
                j := i - kd + jb // Column index in the full matrix
                b[(kd-jb)*ldb+j] = a[i*lda+jb]
            }
        }
    }
}
``` -/
def convDpbToLapacke {α : Type*} (uplo : Char) (n kd : ℤ) (a : List α)
    (lda : ℤ) (b : List α) (ldb : ℤ) : Option (List α × List α) :=
  if uplo = blasUpper then
    (irange 0 n).foldlM (fun st i =>
      (irange 0 (min (n - i) (kd + 1))).foldlM (fun st jb =>
        -- j := i + jb is the column index in the full matrix
        copyStep st (i * lda + jb) ((kd - jb) * ldb + (i + jb))) st) (a, b)
  else
    (irange 0 n).foldlM (fun st i =>
      (irange (max 0 (kd - i)) (kd + 1)).foldlM (fun st jb =>
        -- j := i - kd + jb is the column index in the full matrix
        copyStep st (i * lda + jb) ((kd - jb) * ldb + (i - kd + jb))) st) (a, b)

/-- `convDpbToGonum` from the `lapack/netlib` package: the inverse
conversion to `convDpbToLapacke`.

Go source:
```
func convDpbToGonum(uplo blas.Uplo, n, kd int, a []float64, lda int, b []float64, ldb int) {
    if uplo == blas.Upper {
        for j := 0; j < n; j++ {
            for ib := max(0, kd-j); ib < kd+1; ib++ {
                i := j - kd + ib // Row index in the full matrix
                b[i*ldb+kd-ib] = a[ib*lda+j]
            }
        }
    } else {
        for j := 0; j < n; j++ {
            for ib := 0; ib < min(n-j, kd+1); ib++ {
                i := j + ib // Row index in the full matrix
                b[i*ldb+kd-ib] = a[ib*lda+j]
            }
        }
    }
}
``` -/
def convDpbToGonum {α : Type*} (uplo : Char) (n kd : ℤ) (a : List α)
    (lda : ℤ) (b : List α) (ldb : ℤ) : Option (List α × List α) :=
  if uplo = blasUpper then
    (irange 0 n).foldlM (fun st j =>
      (irange (max 0 (kd - j)) (kd + 1)).foldlM (fun st ib =>
        -- i := j - kd + ib is the row index in the full matrix
        copyStep st (ib * lda + j) ((j - kd + ib) * ldb + kd - ib)) st) (a, b)
  else
    (irange 0 n).foldlM (fun st j =>
      (irange 0 (min (n - j) (kd + 1))).foldlM (fun st ib =>
        -- i := j + ib is the row index in the full matrix
        copyStep st (ib * lda + j) ((j + ib) * ldb + kd - ib)) st) (a, b)

/-- The in-band loop domain of the upper-triangle converters, in client
coordinates: row `i`, in-row offset `jb` (column `i + jb`). -/
def inBandU (n kd i jb : ℤ) : Prop :=
  0 ≤ i ∧ i < n ∧ 0 ≤ jb ∧ jb < min (n - i) (kd + 1)

/-- The in-band loop domain of the lower-triangle converters, in client
coordinates: row `i`, in-row offset `jb` (column `i - kd + jb`). -/
def inBandL (n kd i jb : ℤ) : Prop :=
  0 ≤ i ∧ i < n ∧ max 0 (kd - i) ≤ jb ∧ jb < kd + 1

/-- The in-band client positions selected by an `uplo` argument: any value
other than `'U'` selects the lower triangle, mirroring the converters'
`if uplo == 'U' { ... } else { ... }` dispatch. -/
def inBand (uplo : Char) (n kd i jb : ℤ) : Prop :=
  if uplo = 'U' then inBandU n kd i jb else inBandL n kd i jb

/-- Client-form (CBLAS row-major band) offset of row `i`, in-row offset
`jb`, at stride `lda`. -/
def clientIdx (lda i jb : ℤ) : ℤ := i * lda + jb

/-- Column index in the full matrix of client position `(i, jb)`:
`i + jb` for the upper triangle, `i - kd + jb` for the lower. -/
def colOf (uplo : Char) (kd i jb : ℤ) : ℤ :=
  if uplo = 'U' then i + jb else i - kd + jb

/-- Column-major (FORTRAN) band offset of column `j`, in-row offset `jb`
of the corresponding client row, at stride `ldb`: diagonal slot `kd - jb`,
column `j`. -/
def colIdx (ldb kd j jb : ℤ) : ℤ := kd - jb + j * ldb

/-- LAPACKE row-major (diagonal-major) band offset of column `j`, in-row
offset `jb` of the corresponding client row, at stride `ldb`. -/
def lapIdx (ldb kd j jb : ℤ) : ℤ := (kd - jb) * ldb + j

/-- Size precondition for a client-form (CBLAS row-major band) buffer:
stride at least `kd+1` and length at least `(n-1)*stride + kd+1`. -/
def clientSized {α : Type*} (n kd lda : ℤ) (a : List α) : Prop :=
  kd + 1 ≤ lda ∧ (n - 1) * lda + kd + 1 ≤ (a.length : ℤ)

/-- Size precondition for a column-major (FORTRAN) band buffer:
stride at least `kd+1` and length at least `(n-1)*stride + kd+1`. -/
def colSized {α : Type*} (n kd ldb : ℤ) (b : List α) : Prop :=
  kd + 1 ≤ ldb ∧ (n - 1) * ldb + kd + 1 ≤ (b.length : ℤ)

/-- Size precondition for a LAPACKE row-major (diagonal-major) band buffer:
stride at least `max 1 n` and length at least `kd*stride + n`. -/
def lapSized {α : Type*} (n kd ldb : ℤ) (b : List α) : Prop :=
  max 1 n ≤ ldb ∧ kd * ldb + n ≤ (b.length : ℤ)

instance {α : Type*} {n kd lda : ℤ} {a : List α} :
    Decidable (clientSized n kd lda a) :=
  decidable_of_iff (kd + 1 ≤ lda ∧ (n - 1) * lda + kd + 1 ≤ (a.length : ℤ))
    Iff.rfl

instance {α : Type*} {n kd ldb : ℤ} {b : List α} :
    Decidable (colSized n kd ldb b) :=
  decidable_of_iff (kd + 1 ≤ ldb ∧ (n - 1) * ldb + kd + 1 ≤ (b.length : ℤ))
    Iff.rfl

instance {α : Type*} {n kd ldb : ℤ} {b : List α} :
    Decidable (lapSized n kd ldb b) :=
  decidable_of_iff (max 1 n ≤ ldb ∧ kd * ldb + n ≤ (b.length : ℤ)) Iff.rfl

/-- The destination offsets written by `DpbToColMajor`, in write order. -/
def colMajorDsts (uplo : Char) (n kd ldb : ℤ) : List ℤ :=
  if uplo = 'U' then
    (irange 0 n).flatMap fun i =>
      (irange 0 (min (n - i) (kd + 1))).map fun jb => kd - jb + (i + jb) * ldb
  else
    (irange 0 n).flatMap fun i =>
      (irange (max 0 (kd - i))
        (kd + 1)).map fun jb => kd - jb + (i - kd + jb) * ldb

/-- The destination offsets written by `convDpbToLapacke`, in write order. -/
def lapackeDsts (uplo : Char) (n kd ldb : ℤ) : List ℤ :=
  if uplo = blasUpper then
    (irange 0 n).flatMap fun i =>
      (irange 0 (min (n - i) (kd + 1))).map fun jb => (kd - jb) * ldb + (i + jb)
  else
    (irange 0 n).flatMap fun i =>
      (irange (max 0 (kd - i))
        (kd + 1)).map fun jb => (kd - jb) * ldb + (i - kd + jb)

/-- The number of stored elements of one triangle of an `n×n` band matrix
with `kd` off-diagonals: `∑ i in [0,n), min (n-i) (kd+1)`. -/
def triBandCount (n kd : ℤ) : ℤ :=
  ((irange 0 n).map fun i => min (n - i) (kd + 1)).sum

/-- 32-bit wrap-around of an integer, the effect of Go's `int32(v)`
conversion on an `int` value `v`. -/
def wrap32 (x : ℤ) : ℤ := (x + 2 ^ 31) % 2 ^ 32 - 2 ^ 31

/-- Modelled on the 0-based → 1-based pivot translation performed by the
`Dgeqp3` wrapper before the native call:
```
jpvt32 := make([]int32, n)
for i, v := range jpvt {
    v++
    if v != int(int32(v)) || v < 0 || n < v {
        panic(badJpvt)
    }
    jpvt32[i] = int32(v)
}
```
`none` models the panic. -/
def jpvtToOneBased (n : ℤ) (v : List ℤ) : Option (List ℤ) :=
  v.mapM fun x =>
    if x + 1 ≠ wrap32 (x + 1) ∨ x + 1 < 0 ∨ n < x + 1 then none
    else some (x + 1)

/-- The 1-based → 0-based pivot translation performed by the `Dgeqp3` and
`Dpstrf` wrappers after the native call returns
(`jpvt[i] = int(v - 1)`, `piv[i] = int(v) - 1`). -/
def pivToZeroBased (v : List ℤ) : List ℤ :=
  v.map fun x => x - 1

theorem mem_irange {x lo hi : ℤ} : x ∈ irange lo hi ↔ lo ≤ x ∧ x < hi := by
  simp only [irange, List.mem_map, List.mem_range]
  constructor
  · rintro ⟨k, hk, rfl⟩
    omega
  · intro h
    exact ⟨(x - lo).toNat, by omega, by omega⟩

theorem length_irange (lo hi : ℤ) : (irange lo hi).length = (hi - lo).toNat := by
  rw [irange, List.length_map, List.length_range]

theorem mem_bandPairs {n : ℤ} {lo hi : ℤ → ℤ} {sx dx : ℤ → ℤ → ℤ} {p : ℤ × ℤ} :
    p ∈ bandPairs n lo hi sx dx ↔
      ∃ i jb, (0 ≤ i ∧ i < n ∧ lo i ≤ jb ∧ jb < hi i) ∧
        p = (sx i jb, dx i jb) := by
  simp only [bandPairs, List.mem_flatMap, List.mem_map, mem_irange]
  constructor
  · rintro ⟨i, hi, jb, hjb, rfl⟩
    exact ⟨i, jb, ⟨hi.1, hi.2, hjb.1, hjb.2⟩, rfl⟩
  · rintro ⟨i, jb, ⟨h1, h2, h3, h4⟩, rfl⟩
    exact ⟨i, ⟨h1, h2⟩, jb, ⟨h3, h4⟩, rfl⟩

theorem runCopies_append {α : Type*} (ps qs : List (ℤ × ℤ))
    (st : List α × List α) :
    runCopies (ps ++ qs) st = (runCopies ps st).bind (runCopies qs) := by
  simp [runCopies, List.foldlM_append]

theorem runCopies_map {α : Type*} (l : List ℤ) (sx dx : ℤ → ℤ)
    (st : List α × List α) :
    runCopies (l.map fun jb => (sx jb, dx jb)) st
      = l.foldlM (fun st jb => copyStep st (sx jb) (dx jb)) st := by
  simp [runCopies, List.foldlM_map]

theorem foldlM_copy_flatMap {α : Type*} (l : List ℤ) (g : ℤ → List ℤ)
    (sx dx : ℤ → ℤ → ℤ) (st : List α × List α) :
    l.foldlM (fun st i => (g i).foldlM
        (fun st jb => copyStep st (sx i jb) (dx i jb)) st) st
      = runCopies (l.flatMap fun i =>
          (g i).map fun jb => (sx i jb, dx i jb)) st := by
  induction l generalizing st with
  | nil => rfl
  | cons x xs ih =>
    rw [List.flatMap_cons, runCopies_append, List.foldlM_cons, ← runCopies_map]
    cases h : runCopies ((g x).map fun jb => (sx x jb, dx x jb)) st with
    | none => rfl
    | some st' => simpa using ih st'

theorem runCopies_spec {α : Type*} (ps : List (ℤ × ℤ)) (a b : List α)
    (hs : ∀ p ∈ ps, 0 ≤ p.1 ∧ p.1 < (a.length : ℤ))
    (hd : ∀ p ∈ ps, 0 ≤ p.2 ∧ p.2 < (b.length : ℤ)) :
    ∃ b', runCopies ps (a, b) = some (a, b') ∧ b'.length = b.length ∧
      (∀ t : ℕ, (∀ p ∈ ps, p.2 ≠ (t : ℤ)) → b'[t]? = b[t]?) ∧
      ∀ s d : ℤ, (s, d) ∈ ps → (∀ p ∈ ps, p.2 = d → p.1 = s) →
        b'[d.toNat]? = a[s.toNat]? := by
  induction ps generalizing b with
  | nil =>
    exact ⟨b, rfl, rfl, fun t _ => rfl,
      fun s d h => absurd h (List.not_mem_nil _)⟩
  | cons p rest ih =>
    obtain ⟨hs0, hs1⟩ := hs p (List.mem_cons_self p rest)
    obtain ⟨hd0, hd1⟩ := hd p (List.mem_cons_self p rest)
    have hsn : p.1.toNat < a.length := by omega
    have hdn : p.2.toNat < b.length := by omega
    obtain ⟨v, hv⟩ : ∃ v, a[p.1.toNat]? = some v :=
      ⟨a[p.1.toNat], List.getElem?_eq_getElem hsn⟩
    have hstep : copyStep (a, b) p.1 p.2 = some (a, b.set p.2.toNat v) := by
      simp [copyStep, rd, wr, hs0, hd0, hdn, hv]
    have hrun : runCopies (p :: rest) (a, b)
        = runCopies rest (a, b.set p.2.toNat v) := by
      simp [runCopies, List.foldlM_cons, hstep]
    obtain ⟨b', hrun', hlen, hframe, hval⟩ :=
      ih (b.set p.2.toNat v)
        (fun q hq => hs q (List.mem_cons_of_mem p hq))
        (fun q hq => by
          simpa using hd q (List.mem_cons_of_mem p hq))
    refine ⟨b', by rw [hrun, hrun'], by simpa using hlen, ?_, ?_⟩
    · intro t ht
      have h1 : b'[t]? = (b.set p.2.toNat v)[t]? :=
        hframe t fun q hq => ht q (List.mem_cons_of_mem p hq)
      have h2 : p.2.toNat ≠ t := by
        have := ht p (List.mem_cons_self p rest)
        omega
      rw [h1, List.getElem?_set_ne h2]
    · intro s d hmem huniq
      rcases List.mem_cons.mp hmem with heq | hmem'
      · by_cases hrest : ∃ q ∈ rest, q.2 = d
        · obtain ⟨q, hq, hq2⟩ := hrest
          have hq1 : q.1 = s := huniq q (List.mem_cons_of_mem p hq) hq2
          have : (s, d) ∈ rest := by
            have : q = (s, d) := Prod.ext hq1 hq2
            rwa [this] at hq
          exact hval s d this fun q' hq' =>
            huniq q' (List.mem_cons_of_mem p hq')
        · push_neg at hrest
          have hpd : p.2 = d := by rw [← heq]
          have hps : p.1 = s := by rw [← heq]
          have h1 : b'[d.toNat]? = (b.set p.2.toNat v)[d.toNat]? :=
            hframe d.toNat fun q hq => by
              have := hrest q hq
              have h0 := (hd q (List.mem_cons_of_mem p hq)).1
              omega
          have hdt : p.2.toNat = d.toNat := by rw [hpd]
          rw [h1, hdt, List.getElem?_set_self (by omega), ← hps]
          exact hv.symm
      · exact hval s d hmem' fun q hq => huniq q (List.mem_cons_of_mem p hq)

theorem quot_rem_inj (stride r q r' q' : ℤ) (h1 : 0 ≤ r) (h2 : r < stride)
    (h3 : 0 ≤ r') (h4 : r' < stride) (h : r + q * stride = r' + q' * stride) :
    r = r' ∧ q = q' := by
  have key : q = q' := by
    by_contra hne
    rcases lt_or_gt_of_ne hne with hlt | hgt
    · have hone : 1 ≤ q' - q := by omega
      have hmul : stride ≤ (q' - q) * stride :=
        le_mul_of_one_le_left (by linarith) hone
      have hexp : (q' - q) * stride = r - r' := by linear_combination - h
      linarith
    · have hone : 1 ≤ q - q' := by omega
      have hmul : stride ≤ (q - q') * stride :=
        le_mul_of_one_le_left (by linarith) hone
      have hexp : (q - q') * stride = r' - r := by linear_combination h
      linarith
  subst key
  exact ⟨by linarith, rfl⟩

theorem offIdx_bounds (q r Q R stride len : ℤ) (hq : 0 ≤ q) (hqQ : q ≤ Q)
    (hr : 0 ≤ r) (hrR : r ≤ R) (hstride : 0 ≤ stride)
    (hlen : Q * stride + R < len) :
    0 ≤ q * stride + r ∧ q * stride + r < len := by
  have h1 : q * stride ≤ Q * stride := mul_le_mul_of_nonneg_right hqQ hstride
  have h2 : 0 ≤ q * stride := mul_nonneg hq hstride
  constructor <;> linarith

theorem inBandU_iff {n kd i jb : ℤ} :
    inBandU n kd i jb ↔ 0 ≤ i ∧ i < n ∧ 0 ≤ jb ∧ jb ≤ kd ∧ i + jb < n := by
  unfold inBandU
  rw [lt_min_iff]
  omega

theorem inBandL_iff {n kd i jb : ℤ} :
    inBandL n kd i jb ↔
      0 ≤ i ∧ i < n ∧ 0 ≤ jb ∧ jb ≤ kd ∧ kd - i ≤ jb := by
  unfold inBandL
  rw [max_le_iff]
  omega

theorem DpbToColMajor_U_eq {α : Type*} (n kd lda ldb : ℤ) (a b : List α) :
    DpbToColMajor 'U' n kd a lda b ldb
      = runCopies (bandPairs n (fun _ => 0) (fun i => min (n - i) (kd + 1))
          (fun i jb => i * lda + jb)
          (fun i jb => kd - jb + (i + jb) * ldb)) (a, b) := by
  rw [DpbToColMajor, if_pos rfl, bandPairs]
  exact foldlM_copy_flatMap _ _ _ _ _

theorem DpbToColMajor_L_eq {α : Type*} (uplo : Char) (hu : uplo ≠ 'U')
    (n kd lda ldb : ℤ) (a b : List α) :
    DpbToColMajor uplo n kd a lda b ldb
      = runCopies (bandPairs n (fun i => max 0 (kd - i)) (fun _ => kd + 1)
          (fun i jb => i * lda + jb)
          (fun i jb => kd - jb + (i - kd + jb) * ldb)) (a, b) := by
  rw [DpbToColMajor, if_neg hu, bandPairs]
  exact foldlM_copy_flatMap _ _ _ _ _

theorem DpbToRowMajor_U_eq {α : Type*} (n kd lda ldb : ℤ) (a b : List α) :
    DpbToRowMajor 'U' n kd a lda b ldb
      = runCopies (bandPairs n (fun j => max 0 (kd - j)) (fun _ => kd + 1)
          (fun j ib => ib + j * lda)
          (fun j ib => (j - kd + ib) * ldb + kd - ib)) (a, b) := by
  rw [DpbToRowMajor, if_pos rfl, bandPairs]
  exact foldlM_copy_flatMap _ _ _ _ _

theorem DpbToRowMajor_L_eq {α : Type*} (uplo : Char) (hu : uplo ≠ 'U')
    (n kd lda ldb : ℤ) (a b : List α) :
    DpbToRowMajor uplo n kd a lda b ldb
      = runCopies (bandPairs n (fun _ => 0) (fun j => min (n - j) (kd + 1))
          (fun j ib => ib + j * lda)
          (fun j ib => (j + ib) * ldb + kd - ib)) (a, b) := by
  rw [DpbToRowMajor, if_neg hu, bandPairs]
  exact foldlM_copy_flatMap _ _ _ _ _

theorem convDpbToLapacke_U_eq {α : Type*} (n kd lda ldb : ℤ) (a b : List α) :
    convDpbToLapacke 'U' n kd a lda b ldb
      = runCopies (bandPairs n (fun _ => 0) (fun i => min (n - i) (kd + 1))
          (fun i jb => i * lda + jb)
          (fun i jb => (kd - jb) * ldb + (i + jb))) (a, b) := by
  rw [convDpbToLapacke, blasUpper, if_pos rfl, bandPairs]
  exact foldlM_copy_flatMap _ _ _ _ _

theorem convDpbToLapacke_L_eq {α : Type*} (uplo : Char) (hu : uplo ≠ 'U')
    (n kd lda ldb : ℤ) (a b : List α) :
    convDpbToLapacke uplo n kd a lda b ldb
      = runCopies (bandPairs n (fun i => max 0 (kd - i)) (fun _ => kd + 1)
          (fun i jb => i * lda + jb)
          (fun i jb => (kd - jb) * ldb + (i - kd + jb))) (a, b) := by
  rw [convDpbToLapacke, blasUpper, if_neg hu, bandPairs]
  exact foldlM_copy_flatMap _ _ _ _ _

theorem convDpbToGonum_U_eq {α : Type*} (n kd lda ldb : ℤ) (a b : List α) :
    convDpbToGonum 'U' n kd a lda b ldb
      = runCopies (bandPairs n (fun j => max 0 (kd - j)) (fun _ => kd + 1)
          (fun j ib => ib * lda + j)
          (fun j ib => (j - kd + ib) * ldb + kd - ib)) (a, b) := by
  rw [convDpbToGonum, blasUpper, if_pos rfl, bandPairs]
  exact foldlM_copy_flatMap _ _ _ _ _

theorem convDpbToGonum_L_eq {α : Type*} (uplo : Char) (hu : uplo ≠ 'U')
    (n kd lda ldb : ℤ) (a b : List α) :
    convDpbToGonum uplo n kd a lda b ldb
      = runCopies (bandPairs n (fun _ => 0) (fun j => min (n - j) (kd + 1))
          (fun j ib => ib * lda + j)
          (fun j ib => (j + ib) * ldb + kd - ib)) (a, b) := by
  rw [convDpbToGonum, blasUpper, if_neg hu, bandPairs]
  exact foldlM_copy_flatMap _ _ _ _ _

theorem bandPairs_spec {α : Type*} (n : ℤ) (lo hi : ℤ → ℤ)
    (sx dx : ℤ → ℤ → ℤ) (a b : List α)
    (hsb : ∀ i jb, 0 ≤ i → i < n → lo i ≤ jb → jb < hi i →
      0 ≤ sx i jb ∧ sx i jb < (a.length : ℤ))
    (hdb : ∀ i jb, 0 ≤ i → i < n → lo i ≤ jb → jb < hi i →
      0 ≤ dx i jb ∧ dx i jb < (b.length : ℤ))
    (hinj : ∀ i jb i' jb', (0 ≤ i ∧ i < n ∧ lo i ≤ jb ∧ jb < hi i) →
      (0 ≤ i' ∧ i' < n ∧ lo i' ≤ jb' ∧ jb' < hi i') →
      dx i jb = dx i' jb' → sx i jb = sx i' jb') :
    ∃ b', runCopies (bandPairs n lo hi sx dx) (a, b) = some (a, b') ∧
      b'.length = b.length ∧
      (∀ i jb, 0 ≤ i → i < n → lo i ≤ jb → jb < hi i →
        b'[(dx i jb).toNat]? = a[(sx i jb).toNat]?) ∧
      ∀ t : ℕ, (∀ i jb, 0 ≤ i → i < n → lo i ≤ jb → jb < hi i →
          (t : ℤ) ≠ dx i jb) → b'[t]? = b[t]? := by
  obtain ⟨b', hrun, hlen, hframe, hval⟩ :=
    runCopies_spec (bandPairs n lo hi sx dx) a b
      (fun p hp => by
        obtain ⟨i, jb, hij, rfl⟩ := mem_bandPairs.mp hp
        exact hsb i jb hij.1 hij.2.1 hij.2.2.1 hij.2.2.2)
      (fun p hp => by
        obtain ⟨i, jb, hij, rfl⟩ := mem_bandPairs.mp hp
        exact hdb i jb hij.1 hij.2.1 hij.2.2.1 hij.2.2.2)
  refine ⟨b', hrun, hlen, ?_, ?_⟩
  · intro i jb h1 h2 h3 h4
    refine hval (sx i jb) (dx i jb)
      (mem_bandPairs.mpr ⟨i, jb, ⟨h1, h2, h3, h4⟩, rfl⟩) ?_
    intro p hp hpd
    obtain ⟨i', jb', hij', rfl⟩ := mem_bandPairs.mp hp
    exact hinj i' jb' i jb hij' ⟨h1, h2, h3, h4⟩ hpd
  · intro t ht
    refine hframe t fun p hp => ?_
    obtain ⟨i, jb, hij, rfl⟩ := mem_bandPairs.mp hp
    exact (ht i jb hij.1 hij.2.1 hij.2.2.1 hij.2.2.2).symm

theorem DpbToColMajor_U_spec {α : Type*} (n kd lda ldb : ℤ) (a b : List α)
    (hkd : 0 ≤ kd) (ha : clientSized n kd lda a) (hb : colSized n kd ldb b) :
    ∃ b', DpbToColMajor 'U' n kd a lda b ldb = some (a, b') ∧
      b'.length = b.length ∧
      (∀ i jb, inBandU n kd i jb →
        b'[(colIdx ldb kd (i + jb) jb).toNat]?
          = a[(clientIdx lda i jb).toNat]?) ∧
      ∀ t : ℕ, (∀ i jb, inBandU n kd i jb →
          (t : ℤ) ≠ colIdx ldb kd (i + jb) jb) →
        b'[t]? = b[t]? := by
  obtain ⟨hlda, halen⟩ := ha
  obtain ⟨hldb, hblen⟩ := hb
  obtain ⟨b', hrun, hlen, hval, hframe⟩ := bandPairs_spec (n)
    (fun _ => 0) (fun i => min (n - i) (kd + 1))
    (fun i jb => i * lda + jb)
    (fun i jb => kd - jb + (i + jb) * ldb) a b
    (fun i jb h1 h2 h3 h4 => by
      dsimp only at h3 h4
      rw [lt_min_iff] at h4
      have := offIdx_bounds (i) (jb) (n - 1) (kd)
        (lda) ((a.length : ℤ)) h1 (by omega) h3 (by omega)
        (by omega) (by linarith)
      exact this)
    (fun i jb h1 h2 h3 h4 => by
      dsimp only at h3 h4 ⊢
      rw [lt_min_iff] at h4
      have := offIdx_bounds (i + jb) (kd - jb) (n - 1)
        (kd) (ldb) ((b.length : ℤ)) (by omega)
        (by omega) (by omega) (by omega) (by omega) (by linarith)
      constructor <;> linarith [this.1, this.2])
    (fun i jb i' jb' hd hd' he => by
      obtain ⟨a1, a2, a3, a4⟩ := hd
      obtain ⟨c1, c2, c3, c4⟩ := hd'
      dsimp only at a3 a4 c3 c4 he
      rw [lt_min_iff] at a4 c4
      have hq := quot_rem_inj (ldb) (kd - jb) (i + jb)
        (kd - jb') (i' + jb') (by omega) (by omega) (by omega)
        (by omega) (by linarith [he])
      have e1 : jb = jb' := by omega
      have e2 : i = i' := by omega
      rw [e1, e2])
  refine ⟨b', by rw [DpbToColMajor_U_eq]; exact hrun, hlen, ?_, ?_⟩
  · intro i jb hij
    rw [inBandU_iff] at hij
    exact hval i jb hij.1 hij.2.1 hij.2.2.1
      (lt_min_iff.mpr ⟨by omega, by omega⟩)
  · intro t ht
    refine hframe t fun i jb h1 h2 h3 h4 => ?_
    rw [lt_min_iff] at h4
    exact ht i jb (inBandU_iff.mpr ⟨h1, h2, h3, by omega, by omega⟩)

theorem DpbToColMajor_L_spec {α : Type*} (uplo : Char) (hu : uplo ≠ 'U')
    (n kd lda ldb : ℤ) (a b : List α)
    (hkd : 0 ≤ kd) (ha : clientSized n kd lda a) (hb : colSized n kd ldb b) :
    ∃ b', DpbToColMajor uplo n kd a lda b ldb = some (a, b') ∧
      b'.length = b.length ∧
      (∀ i jb, inBandL n kd i jb →
        b'[(colIdx ldb kd (i - kd + jb) jb).toNat]?
          = a[(clientIdx lda i jb).toNat]?) ∧
      ∀ t : ℕ, (∀ i jb, inBandL n kd i jb →
          (t : ℤ) ≠ colIdx ldb kd (i - kd + jb) jb) →
        b'[t]? = b[t]? := by
  obtain ⟨hlda, halen⟩ := ha
  obtain ⟨hldb, hblen⟩ := hb
  obtain ⟨b', hrun, hlen, hval, hframe⟩ := bandPairs_spec (n)
    (fun i => max 0 (kd - i)) (fun _ => kd + 1)
    (fun i jb => i * lda + jb)
    (fun i jb => kd - jb + (i - kd + jb) * ldb) a b
    (fun i jb h1 h2 h3 h4 => by
      dsimp only at h3 h4
      rw [max_le_iff] at h3
      have := offIdx_bounds (i) (jb) (n - 1) (kd)
        (lda) ((a.length : ℤ)) h1 (by omega) (by omega)
        (by omega) (by omega) (by linarith)
      exact this)
    (fun i jb h1 h2 h3 h4 => by
      dsimp only at h3 h4 ⊢
      rw [max_le_iff] at h3
      have := offIdx_bounds (i - kd + jb) (kd - jb) (n - 1)
        (kd) (ldb) ((b.length : ℤ)) (by omega)
        (by omega) (by omega) (by omega) (by omega) (by linarith)
      constructor <;> linarith [this.1, this.2])
    (fun i jb i' jb' hd hd' he => by
      obtain ⟨a1, a2, a3, a4⟩ := hd
      obtain ⟨c1, c2, c3, c4⟩ := hd'
      dsimp only at a3 a4 c3 c4 he
      rw [max_le_iff] at a3 c3
      have hq := quot_rem_inj (ldb) (kd - jb)
        (i - kd + jb) (kd - jb') (i' - kd + jb')
        (by omega) (by omega) (by omega) (by omega) (by linarith [he])
      have e1 : jb = jb' := by omega
      have e2 : i = i' := by omega
      rw [e1, e2])
  refine ⟨b', by rw [DpbToColMajor_L_eq uplo hu]; exact hrun, hlen, ?_, ?_⟩
  · intro i jb hij
    rw [inBandL_iff] at hij
    exact hval i jb hij.1 hij.2.1
      (by show max 0 (kd - i) ≤ jb; rw [max_le_iff]; omega)
      (show jb < kd + 1 by omega)
  · intro t ht
    refine hframe t fun i jb h1 h2 h3 h4 => ?_
    try dsimp only at h3 h4
    rw [max_le_iff] at h3
    exact ht i jb (inBandL_iff.mpr ⟨h1, h2, by omega, by omega, by omega⟩)

theorem DpbToRowMajor_U_spec {α : Type*} (n kd lda ldb : ℤ) (a b : List α)
    (hkd : 0 ≤ kd) (ha : colSized n kd lda a) (hb : clientSized n kd ldb b) :
    ∃ b', DpbToRowMajor 'U' n kd a lda b ldb = some (a, b') ∧
      b'.length = b.length ∧
      (∀ i jb, inBandU n kd i jb →
        b'[(clientIdx ldb i jb).toNat]?
          = a[(colIdx lda kd (i + jb) jb).toNat]?) ∧
      ∀ t : ℕ, (∀ i jb, inBandU n kd i jb →
          (t : ℤ) ≠ clientIdx ldb i jb) →
        b'[t]? = b[t]? := by
  obtain ⟨hlda, halen⟩ := ha
  obtain ⟨hldb, hblen⟩ := hb
  obtain ⟨b', hrun, hlen, hval, hframe⟩ := bandPairs_spec (n)
    (fun j => max 0 (kd - j)) (fun _ => kd + 1)
    (fun j ib => ib + j * lda)
    (fun j ib => (j - kd + ib) * ldb + kd - ib) a b
    (fun j ib h1 h2 h3 h4 => by
      dsimp only at h3 h4 ⊢
      rw [max_le_iff] at h3
      have := offIdx_bounds (j) (ib) (n - 1) (kd)
        (lda) ((a.length : ℤ)) h1 (by omega) (by omega)
        (by omega) (by omega) (by linarith)
      constructor <;> linarith [this.1, this.2])
    (fun j ib h1 h2 h3 h4 => by
      dsimp only at h3 h4 ⊢
      rw [max_le_iff] at h3
      have := offIdx_bounds (j - kd + ib) (kd - ib) (n - 1)
        (kd) (ldb) ((b.length : ℤ)) (by omega)
        (by omega) (by omega) (by omega) (by omega) (by linarith)
      constructor <;> linarith [this.1, this.2])
    (fun j ib j' ib' hd hd' he => by
      obtain ⟨a1, a2, a3, a4⟩ := hd
      obtain ⟨c1, c2, c3, c4⟩ := hd'
      dsimp only at a3 a4 c3 c4 he
      rw [max_le_iff] at a3 c3
      have hq := quot_rem_inj (ldb) (kd - ib)
        (j - kd + ib) (kd - ib') (j' - kd + ib')
        (by omega) (by omega) (by omega) (by omega) (by linarith [he])
      have e1 : ib = ib' := by omega
      have e2 : j = j' := by omega
      rw [e1, e2])
  refine ⟨b', by rw [DpbToRowMajor_U_eq]; exact hrun, hlen, ?_, ?_⟩
  · intro i jb hij
    rw [inBandU_iff] at hij
    have := hval (i + jb) (kd - jb) (by omega) (by omega)
      (by show max 0 (kd - (i + jb)) ≤ kd - jb; rw [max_le_iff]; omega)
      (show kd - jb < kd + 1 by omega)
    try dsimp only at this
    rw [show i + jb - kd + (kd - jb) = i by ring] at this
    have ex : i * ldb + kd - (kd - jb) = clientIdx ldb i jb := by
      simp only [clientIdx]; ring
    rw [ex] at this
    exact this
  · intro t ht
    refine hframe t fun j ib h1 h2 h3 h4 => ?_
    try dsimp only at h3 h4 ⊢
    rw [max_le_iff] at h3
    have hib := ht (j - kd + ib) (kd - ib)
      (inBandU_iff.mpr ⟨by omega, by omega, by omega, by omega, by omega⟩)
    simp only [clientIdx] at hib
    intro hc
    exact hib (by linarith [hc])

theorem DpbToRowMajor_L_spec {α : Type*} (uplo : Char) (hu : uplo ≠ 'U')
    (n kd lda ldb : ℤ) (a b : List α)
    (hkd : 0 ≤ kd) (ha : colSized n kd lda a) (hb : clientSized n kd ldb b) :
    ∃ b', DpbToRowMajor uplo n kd a lda b ldb = some (a, b') ∧
      b'.length = b.length ∧
      (∀ i jb, inBandL n kd i jb →
        b'[(clientIdx ldb i jb).toNat]?
          = a[(colIdx lda kd (i - kd + jb) jb).toNat]?) ∧
      ∀ t : ℕ, (∀ i jb, inBandL n kd i jb →
          (t : ℤ) ≠ clientIdx ldb i jb) →
        b'[t]? = b[t]? := by
  obtain ⟨hlda, halen⟩ := ha
  obtain ⟨hldb, hblen⟩ := hb
  obtain ⟨b', hrun, hlen, hval, hframe⟩ := bandPairs_spec (n)
    (fun _ => 0) (fun j => min (n - j) (kd + 1))
    (fun j ib => ib + j * lda)
    (fun j ib => (j + ib) * ldb + kd - ib) a b
    (fun j ib h1 h2 h3 h4 => by
      dsimp only at h3 h4 ⊢
      rw [lt_min_iff] at h4
      have := offIdx_bounds (j) (ib) (n - 1) (kd)
        (lda) ((a.length : ℤ)) h1 (by omega) h3 (by omega)
        (by omega) (by linarith)
      constructor <;> linarith [this.1, this.2])
    (fun j ib h1 h2 h3 h4 => by
      dsimp only at h3 h4 ⊢
      rw [lt_min_iff] at h4
      have := offIdx_bounds (j + ib) (kd - ib) (n - 1)
        (kd) (ldb) ((b.length : ℤ)) (by omega)
        (by omega) (by omega) (by omega) (by omega) (by linarith)
      constructor <;> linarith [this.1, this.2])
    (fun j ib j' ib' hd hd' he => by
      obtain ⟨a1, a2, a3, a4⟩ := hd
      obtain ⟨c1, c2, c3, c4⟩ := hd'
      dsimp only at a3 a4 c3 c4 he
      rw [lt_min_iff] at a4 c4
      have hq := quot_rem_inj (ldb) (kd - ib) (j + ib)
        (kd - ib') (j' + ib') (by omega) (by omega) (by omega)
        (by omega) (by linarith [he])
      have e1 : ib = ib' := by omega
      have e2 : j = j' := by omega
      rw [e1, e2])
  refine ⟨b', by rw [DpbToRowMajor_L_eq uplo hu]; exact hrun, hlen, ?_, ?_⟩
  · intro i jb hij
    rw [inBandL_iff] at hij
    have := hval (i - kd + jb) (kd - jb) (by omega) (by omega) (by omega)
      (by show kd - jb < min (n - (i - kd + jb)) (kd + 1)
          rw [lt_min_iff]
          omega)
    try dsimp only at this
    rw [show i - kd + jb + (kd - jb) = i by ring] at this
    have ex : i * ldb + kd - (kd - jb) = clientIdx ldb i jb := by
      simp only [clientIdx]; ring
    rw [ex] at this
    exact this
  · intro t ht
    refine hframe t fun j ib h1 h2 h3 h4 => ?_
    try dsimp only at h3 h4 ⊢
    rw [lt_min_iff] at h4
    have hib := ht (j + ib) (kd - ib)
      (inBandL_iff.mpr ⟨by omega, by omega, by omega, by omega, by omega⟩)
    simp only [clientIdx] at hib
    intro hc
    exact hib (by linarith [hc])

theorem irange_nodup {lo hi : ℤ} : (irange lo hi).Nodup := by
  rw [irange]
  refine List.Nodup.map_on ?_ (List.nodup_range _)
  intro x _ y _ he
  omega

theorem bandDsts_nodup {n : ℤ} {lo hi : ℤ → ℤ} {dx : ℤ → ℤ → ℤ}
    (hinj : ∀ i jb i' jb', (0 ≤ i ∧ i < n ∧ lo i ≤ jb ∧ jb < hi i) →
      (0 ≤ i' ∧ i' < n ∧ lo i' ≤ jb' ∧ jb' < hi i') →
      dx i jb = dx i' jb' → i = i' ∧ jb = jb') :
    ((irange 0 n).flatMap fun i =>
      (irange (lo i) (hi i)).map fun jb => dx i jb).Nodup := by
  rw [List.nodup_flatMap]
  constructor
  · intro i hi0
    rw [mem_irange] at hi0
    refine List.Nodup.map_on ?_ irange_nodup
    intro jb hjb jb' hjb' he
    rw [mem_irange] at hjb hjb'
    exact (hinj i jb i jb' ⟨hi0.1, by omega, hjb.1, hjb.2⟩
      ⟨hi0.1, by omega, hjb'.1, hjb'.2⟩ he).2
  · refine List.Pairwise.imp_of_mem ?_ irange_nodup
    intro i i' hi0 hi0' hne x hx hx'
    rw [mem_irange] at hi0 hi0'
    simp only [Function.onFun, List.mem_map, mem_irange] at hx hx'
    obtain ⟨jb, hjb, rfl⟩ := hx
    obtain ⟨jb', hjb', he⟩ := hx'
    exact hne (hinj i jb i' jb' ⟨by omega, by omega, hjb.1, hjb.2⟩
      ⟨by omega, by omega, hjb'.1, hjb'.2⟩ he.symm).1

theorem bandDsts_length {n : ℤ} {lo hi : ℤ → ℤ} {dx : ℤ → ℤ → ℤ} :
    ((irange 0 n).flatMap fun i =>
        (irange (lo i) (hi i)).map fun jb => dx i jb).length
      = ((irange 0 n).map fun i => (hi i - lo i).toNat).sum := by
  rw [List.length_flatMap]
  congr 1
  refine List.map_congr_left fun i _ => ?_
  simp [length_irange]

theorem list_range_map_sum (m : ℕ) (g : ℕ → ℤ) :
    ((List.range m).map g).sum = ∑ k in Finset.range m, g k := by
  induction m with
  | zero => rfl
  | succ m ih =>
    rw [List.range_succ, List.map_append, List.sum_append,
      Finset.sum_range_succ, ih]
    simp

theorem irange_zero_map_sum (n : ℤ) (f : ℤ → ℤ) :
    ((irange 0 n).map f).sum = ∑ k in Finset.range n.toNat, f (k : ℤ) := by
  rw [irange, List.map_map, sub_zero, list_range_map_sum]
  refine Finset.sum_congr rfl fun k _ => ?_
  simp

theorem triBandCount_eq_sum (n kd : ℤ) (hn : 0 ≤ n) :
    triBandCount n kd
      = ∑ k in Finset.range n.toNat, min ((k : ℤ) + 1) (kd + 1) := by
  rw [triBandCount, irange_zero_map_sum,
    ← Finset.sum_range_reflect (fun k => min ((k : ℤ) + 1) (kd + 1)) n.toNat]
  refine Finset.sum_congr rfl fun k hk => ?_
  rw [Finset.mem_range] at hk
  have hc : ((n.toNat - 1 - k : ℕ) : ℤ) = n - 1 - k := by omega
  rw [hc, show n - 1 - k + 1 = n - k by ring]

theorem lower_count_sum (n kd : ℤ) (hn : 0 ≤ n) (hkd : 0 ≤ kd) :
    ((irange 0 n).map fun i => kd + 1 - max 0 (kd - i)).sum
      = triBandCount n kd := by
  rw [triBandCount_eq_sum n kd hn, irange_zero_map_sum]
  refine Finset.sum_congr rfl fun k _ => ?_
  rcases le_total (kd - (k : ℤ)) 0 with h | h
  · rw [max_eq_left h, min_eq_right (by omega)]
    omega
  · rw [max_eq_right h, min_eq_left (by omega)]
    omega

theorem sum_min_closed (c : ℤ) (hc : 0 ≤ c) (m : ℕ) :
    2 * (∑ k in Finset.range m, min ((k : ℤ) + 1) (c + 1))
      = (min c ((m : ℤ) - 1) + 1) * (2 * m - min c ((m : ℤ) - 1)) := by
  induction m with
  | zero =>
    rw [Finset.sum_range_zero, min_eq_right (by omega)]
    ring
  | succ m ih =>
    rw [Finset.sum_range_succ, mul_add, ih]
    have hm1 : ((m + 1 : ℕ) : ℤ) - 1 = (m : ℤ) := by push_cast; ring
    rw [hm1]
    rcases le_or_lt ((m : ℤ)) c with h | h
    · rw [min_eq_right (show (m : ℤ) - 1 ≤ c by omega),
        min_eq_left (show (m : ℤ) + 1 ≤ c + 1 by omega),
        min_eq_right (show (m : ℤ) ≤ c by omega)]
      push_cast
      ring
    · rw [min_eq_left (show c ≤ (m : ℤ) - 1 by omega),
        min_eq_right (show c + 1 ≤ (m : ℤ) + 1 by omega),
        min_eq_left (show c ≤ (m : ℤ) by omega)]
      push_cast
      ring

theorem triBandCount_closed (n kd : ℤ) (hn : 0 ≤ n) (hkd : 0 ≤ kd) :
    2 * triBandCount n kd
      = (min kd (n - 1) + 1) * (2 * n - min kd (n - 1)) := by
  rw [triBandCount_eq_sum n kd hn, sum_min_closed kd hkd n.toNat]
  have h1 : ((n.toNat : ℕ) : ℤ) = n := by omega
  rw [h1]

theorem copyStep_fst {α : Type*} {st st' : List α × List α} {s d : ℤ}
    (h : copyStep st s d = some st') : st'.1 = st.1 := by
  cases hr : rd st.1 s with
  | none => simp [copyStep, hr] at h
  | some v =>
    cases hw : wr st.2 d v with
    | none => simp [copyStep, hr, hw] at h
    | some c =>
      simp [copyStep, hr, hw] at h
      subst h
      rfl

theorem runCopies_fst {α : Type*} (ps : List (ℤ × ℤ)) :
    ∀ st st' : List α × List α, runCopies ps st = some st' → st'.1 = st.1 := by
  induction ps with
  | nil =>
    intro st st' h
    rw [runCopies, List.foldlM_nil] at h
    have h2 : st = st' := Option.some.inj h
    rw [← h2]
  | cons p rest ih =>
    intro st st' h
    rw [runCopies, List.foldlM_cons] at h
    cases hc : copyStep st p.1 p.2 with
    | none => rw [hc] at h; simp at h
    | some st1 =>
      rw [hc] at h
      have h1 := ih st1 st' h
      rw [h1, copyStep_fst hc]

theorem DpbToColMajor_nzero {α : Type*} (uplo : Char) (kd lda ldb : ℤ)
    (a b : List α) : DpbToColMajor uplo 0 kd a lda b ldb = some (a, b) := by
  rw [DpbToColMajor]
  split <;> rfl

theorem DpbToRowMajor_nzero {α : Type*} (uplo : Char) (kd lda ldb : ℤ)
    (a b : List α) : DpbToRowMajor uplo 0 kd a lda b ldb = some (a, b) := by
  rw [DpbToRowMajor]
  split <;> rfl

theorem convDpbToLapacke_nzero {α : Type*} (uplo : Char) (kd lda ldb : ℤ)
    (a b : List α) : convDpbToLapacke uplo 0 kd a lda b ldb = some (a, b) := by
  rw [convDpbToLapacke]
  split <;> rfl

theorem convDpbToGonum_nzero {α : Type*} (uplo : Char) (kd lda ldb : ℤ)
    (a b : List α) : convDpbToGonum uplo 0 kd a lda b ldb = some (a, b) := by
  rw [convDpbToGonum]
  split <;> rfl

theorem mapM_some_inv {f : ℤ → Option ℤ} {g : ℤ → ℤ}
    (hfg : ∀ x y, f x = some y → g y = x) :
    ∀ v w : List ℤ, v.mapM f = some w → w.map g = v := by
  intro v
  induction v with
  | nil =>
    intro w h
    rw [List.mapM_nil] at h
    have h2 : ([] : List ℤ) = w := Option.some.inj h
    rw [← h2]
    rfl
  | cons x xs ih =>
    intro w h
    rw [List.mapM_cons] at h
    cases hfx : f x with
    | none => rw [hfx] at h; simp at h
    | some y =>
      rw [hfx] at h
      cases hxs : xs.mapM f with
      | none => rw [hxs] at h; simp at h
      | some ys =>
        rw [hxs] at h
        simp at h
        subst h
        rw [List.map_cons, hfg x y hfx, ih ys hxs]

theorem mapM_map_some_inv {f : ℤ → Option ℤ} {g : ℤ → ℤ}
    (hfg : ∀ x y, f (g x) = some y → y = x) :
    ∀ v w : List ℤ, (v.map g).mapM f = some w → w = v := by
  intro v
  induction v with
  | nil =>
    intro w h
    rw [List.map_nil, List.mapM_nil] at h
    have h2 : ([] : List ℤ) = w := Option.some.inj h
    rw [← h2]
  | cons x xs ih =>
    intro w h
    rw [List.map_cons, List.mapM_cons] at h
    cases hfx : f (g x) with
    | none => rw [hfx] at h; simp at h
    | some y =>
      rw [hfx] at h
      cases hxs : (xs.map g).mapM f with
      | none => rw [hxs] at h; simp at h
      | some ys =>
        rw [hxs] at h
        simp at h
        subst h
        rw [hfg x y hfx, ih ys hxs]

theorem mem_colMajorDsts_U {n kd ldb d : ℤ} :
    d ∈ colMajorDsts 'U' n kd ldb ↔
      ∃ i jb, inBandU n kd i jb ∧ d = kd - jb + (i + jb) * ldb := by
  rw [colMajorDsts, if_pos rfl]
  simp only [List.mem_flatMap, List.mem_map, mem_irange]
  constructor
  · rintro ⟨i, hi, jb, hjb, rfl⟩
    exact ⟨i, jb, ⟨hi.1, hi.2, hjb.1, hjb.2⟩, rfl⟩
  · rintro ⟨i, jb, ⟨h1, h2, h3, h4⟩, rfl⟩
    exact ⟨i, ⟨h1, h2⟩, jb, ⟨h3, h4⟩, rfl⟩

theorem mem_colMajorDsts_L {uplo : Char} (hu : uplo ≠ 'U') {n kd ldb d : ℤ} :
    d ∈ colMajorDsts uplo n kd ldb ↔
      ∃ i jb, inBandL n kd i jb ∧ d = kd - jb + (i - kd + jb) * ldb := by
  rw [colMajorDsts, if_neg hu]
  simp only [List.mem_flatMap, List.mem_map, mem_irange]
  constructor
  · rintro ⟨i, hi, jb, hjb, rfl⟩
    exact ⟨i, jb, ⟨hi.1, hi.2, hjb.1, hjb.2⟩, rfl⟩
  · rintro ⟨i, jb, ⟨h1, h2, h3, h4⟩, rfl⟩
    exact ⟨i, ⟨h1, h2⟩, jb, ⟨h3, h4⟩, rfl⟩

theorem mem_lapackeDsts_U {n kd ldb d : ℤ} :
    d ∈ lapackeDsts 'U' n kd ldb ↔
      ∃ i jb, inBandU n kd i jb ∧ d = (kd - jb) * ldb + (i + jb) := by
  rw [lapackeDsts, blasUpper, if_pos rfl]
  simp only [List.mem_flatMap, List.mem_map, mem_irange]
  constructor
  · rintro ⟨i, hi, jb, hjb, rfl⟩
    exact ⟨i, jb, ⟨hi.1, hi.2, hjb.1, hjb.2⟩, rfl⟩
  · rintro ⟨i, jb, ⟨h1, h2, h3, h4⟩, rfl⟩
    exact ⟨i, ⟨h1, h2⟩, jb, ⟨h3, h4⟩, rfl⟩

theorem mem_lapackeDsts_L {uplo : Char} (hu : uplo ≠ 'U') {n kd ldb d : ℤ} :
    d ∈ lapackeDsts uplo n kd ldb ↔
      ∃ i jb, inBandL n kd i jb ∧ d = (kd - jb) * ldb + (i - kd + jb) := by
  rw [lapackeDsts, if_neg (by rw [blasUpper]; exact hu)]
  simp only [List.mem_flatMap, List.mem_map, mem_irange]
  constructor
  · rintro ⟨i, hi, jb, hjb, rfl⟩
    exact ⟨i, jb, ⟨hi.1, hi.2, hjb.1, hjb.2⟩, rfl⟩
  · rintro ⟨i, jb, ⟨h1, h2, h3, h4⟩, rfl⟩
    exact ⟨i, ⟨h1, h2⟩, jb, ⟨h3, h4⟩, rfl⟩

theorem colMajorDsts_U_nodup {n kd ldb : ℤ} (hkd : 0 ≤ kd)
    (hldb : kd + 1 ≤ ldb) : (colMajorDsts 'U' n kd ldb).Nodup := by
  rw [colMajorDsts, if_pos rfl]
  refine bandDsts_nodup ?_
  intro i jb i' jb' hd hd' he
  obtain ⟨a1, a2, a3, a4⟩ := hd
  obtain ⟨c1, c2, c3, c4⟩ := hd'
  try dsimp only at a3 a4 c3 c4
  rw [lt_min_iff] at a4 c4
  have hq := quot_rem_inj (ldb) (kd - jb) (i + jb)
    (kd - jb') (i' + jb') (by omega) (by omega) (by omega)
    (by omega) (by linarith [he])
  constructor <;> omega

theorem colMajorDsts_L_nodup {uplo : Char} (hu : uplo ≠ 'U') {n kd ldb : ℤ}
    (hkd : 0 ≤ kd) (hldb : kd + 1 ≤ ldb) :
    (colMajorDsts uplo n kd ldb).Nodup := by
  rw [colMajorDsts, if_neg hu]
  refine bandDsts_nodup ?_
  intro i jb i' jb' hd hd' he
  obtain ⟨a1, a2, a3, a4⟩ := hd
  obtain ⟨c1, c2, c3, c4⟩ := hd'
  try dsimp only at a3 a4 c3 c4
  rw [max_le_iff] at a3 c3
  have hq := quot_rem_inj (ldb) (kd - jb) (i - kd + jb)
    (kd - jb') (i' - kd + jb') (by omega) (by omega) (by omega)
    (by omega) (by linarith [he])
  constructor <;> omega

theorem lapackeDsts_U_nodup {n kd ldb : ℤ} (hkd : 0 ≤ kd)
    (hldb : max 1 n ≤ ldb) : (lapackeDsts 'U' n kd ldb).Nodup := by
  rw [lapackeDsts, blasUpper, if_pos rfl]
  rw [max_le_iff] at hldb
  refine bandDsts_nodup ?_
  intro i jb i' jb' hd hd' he
  obtain ⟨a1, a2, a3, a4⟩ := hd
  obtain ⟨c1, c2, c3, c4⟩ := hd'
  try dsimp only at a3 a4 c3 c4
  rw [lt_min_iff] at a4 c4
  have hq := quot_rem_inj (ldb) (i + jb) (kd - jb)
    (i' + jb') (kd - jb') (by omega) (by omega) (by omega)
    (by omega) (by linarith [he])
  constructor <;> omega

theorem lapackeDsts_L_nodup {uplo : Char} (hu : uplo ≠ 'U') {n kd ldb : ℤ}
    (hkd : 0 ≤ kd) (hldb : max 1 n ≤ ldb) :
    (lapackeDsts uplo n kd ldb).Nodup := by
  rw [lapackeDsts, if_neg (by rw [blasUpper]; exact hu)]
  rw [max_le_iff] at hldb
  refine bandDsts_nodup ?_
  intro i jb i' jb' hd hd' he
  obtain ⟨a1, a2, a3, a4⟩ := hd
  obtain ⟨c1, c2, c3, c4⟩ := hd'
  try dsimp only at a3 a4 c3 c4
  rw [max_le_iff] at a3 c3
  have hq := quot_rem_inj (ldb) (i - kd + jb) (kd - jb)
    (i' - kd + jb') (kd - jb') (by omega) (by omega) (by omega)
    (by omega) (by linarith [he])
  constructor <;> omega

theorem colMajorDsts_U_length {n kd ldb : ℤ} (hn : 0 ≤ n) (hkd : 0 ≤ kd) :
    ((colMajorDsts 'U' n kd ldb).length : ℤ) = triBandCount n kd := by
  rw [colMajorDsts, if_pos rfl, bandDsts_length, Nat.cast_list_sum,
    List.map_map, triBandCount]
  congr 1
  refine List.map_congr_left fun i hi => ?_
  rw [mem_irange] at hi
  simp only [Function.comp_apply, sub_zero]
  rcases le_total (n - i) (kd + 1) with h | h
  · rw [min_eq_left h]
    omega
  · rw [min_eq_right h]
    omega

theorem colMajorDsts_L_length {uplo : Char} (hu : uplo ≠ 'U') {n kd ldb : ℤ}
    (hn : 0 ≤ n) (hkd : 0 ≤ kd) :
    ((colMajorDsts uplo n kd ldb).length : ℤ) = triBandCount n kd := by
  rw [colMajorDsts, if_neg hu, bandDsts_length, Nat.cast_list_sum,
    List.map_map, ← lower_count_sum n kd hn hkd]
  congr 1
  refine List.map_congr_left fun i hi => ?_
  rw [mem_irange] at hi
  simp only [Function.comp_apply]
  rcases le_total (kd - i) 0 with h | h
  · rw [max_eq_left h]
    omega
  · rw [max_eq_right h]
    omega

theorem lapackeDsts_U_length {n kd ldb : ℤ} (hn : 0 ≤ n) (hkd : 0 ≤ kd) :
    ((lapackeDsts 'U' n kd ldb).length : ℤ) = triBandCount n kd := by
  rw [lapackeDsts, blasUpper, if_pos rfl, bandDsts_length, Nat.cast_list_sum,
    List.map_map, triBandCount]
  congr 1
  refine List.map_congr_left fun i hi => ?_
  rw [mem_irange] at hi
  simp only [Function.comp_apply, sub_zero]
  rcases le_total (n - i) (kd + 1) with h | h
  · rw [min_eq_left h]
    omega
  · rw [min_eq_right h]
    omega

theorem lapackeDsts_L_length {uplo : Char} (hu : uplo ≠ 'U') {n kd ldb : ℤ}
    (hn : 0 ≤ n) (hkd : 0 ≤ kd) :
    ((lapackeDsts uplo n kd ldb).length : ℤ) = triBandCount n kd := by
  rw [lapackeDsts, if_neg (by rw [blasUpper]; exact hu), bandDsts_length,
    Nat.cast_list_sum, List.map_map, ← lower_count_sum n kd hn hkd]
  congr 1
  refine List.map_congr_left fun i hi => ?_
  rw [mem_irange] at hi
  simp only [Function.comp_apply]
  rcases le_total (kd - i) 0 with h | h
  · rw [max_eq_left h]
    omega
  · rw [max_eq_right h]
    omega

theorem convDpbToLapacke_U_spec {α : Type*} (n kd lda ldb : ℤ)
    (a b : List α) (hkd : 0 ≤ kd) (ha : clientSized n kd lda a)
    (hb : lapSized n kd ldb b) :
    ∃ b', convDpbToLapacke 'U' n kd a lda b ldb = some (a, b') ∧
      b'.length = b.length ∧
      (∀ i jb, inBandU n kd i jb →
        b'[(lapIdx ldb kd (i + jb) jb).toNat]?
          = a[(clientIdx lda i jb).toNat]?) ∧
      ∀ t : ℕ, (∀ i jb, inBandU n kd i jb →
          (t : ℤ) ≠ lapIdx ldb kd (i + jb) jb) →
        b'[t]? = b[t]? := by
  obtain ⟨hlda, halen⟩ := ha
  obtain ⟨hldb, hblen⟩ := hb
  rw [max_le_iff] at hldb
  obtain ⟨b', hrun, hlen, hval, hframe⟩ := bandPairs_spec (n)
    (fun _ => 0) (fun i => min (n - i) (kd + 1))
    (fun i jb => i * lda + jb)
    (fun i jb => (kd - jb) * ldb + (i + jb)) a b
    (fun i jb h1 h2 h3 h4 => by
      try dsimp only at h3 h4 ⊢
      rw [lt_min_iff] at h4
      have := offIdx_bounds (i) (jb) (n - 1) (kd)
        (lda) ((a.length : ℤ)) h1 (by omega) h3 (by omega)
        (by omega) (by linarith)
      exact this)
    (fun i jb h1 h2 h3 h4 => by
      try dsimp only at h3 h4 ⊢
      rw [lt_min_iff] at h4
      have := offIdx_bounds (kd - jb) (i + jb) (kd)
        (n - 1) (ldb) ((b.length : ℤ)) (by omega)
        (by omega) (by omega) (by omega) (by omega) (by linarith)
      constructor <;> linarith [this.1, this.2])
    (fun i jb i' jb' hd hd' he => by
      obtain ⟨a1, a2, a3, a4⟩ := hd
      obtain ⟨c1, c2, c3, c4⟩ := hd'
      try dsimp only at a3 a4 c3 c4 he
      rw [lt_min_iff] at a4 c4
      have hq := quot_rem_inj (ldb) (i + jb) (kd - jb)
        (i' + jb') (kd - jb') (by omega) (by omega) (by omega)
        (by omega) (by linarith [he])
      have e1 : jb = jb' := by omega
      have e2 : i = i' := by omega
      rw [e1, e2])
  refine ⟨b', by rw [convDpbToLapacke_U_eq]; exact hrun, hlen, ?_, ?_⟩
  · intro i jb hij
    rw [inBandU_iff] at hij
    exact hval i jb hij.1 hij.2.1 hij.2.2.1
      (lt_min_iff.mpr ⟨by omega, by omega⟩)
  · intro t ht
    refine hframe t fun i jb h1 h2 h3 h4 => ?_
    try dsimp only at h3 h4 ⊢
    rw [lt_min_iff] at h4
    exact ht i jb (inBandU_iff.mpr ⟨h1, h2, h3, by omega, by omega⟩)

theorem convDpbToLapacke_L_spec {α : Type*} (uplo : Char) (hu : uplo ≠ 'U')
    (n kd lda ldb : ℤ) (a b : List α) (hkd : 0 ≤ kd)
    (ha : clientSized n kd lda a) (hb : lapSized n kd ldb b) :
    ∃ b', convDpbToLapacke uplo n kd a lda b ldb = some (a, b') ∧
      b'.length = b.length ∧
      (∀ i jb, inBandL n kd i jb →
        b'[(lapIdx ldb kd (i - kd + jb) jb).toNat]?
          = a[(clientIdx lda i jb).toNat]?) ∧
      ∀ t : ℕ, (∀ i jb, inBandL n kd i jb →
          (t : ℤ) ≠ lapIdx ldb kd (i - kd + jb) jb) →
        b'[t]? = b[t]? := by
  obtain ⟨hlda, halen⟩ := ha
  obtain ⟨hldb, hblen⟩ := hb
  rw [max_le_iff] at hldb
  obtain ⟨b', hrun, hlen, hval, hframe⟩ := bandPairs_spec (n)
    (fun i => max 0 (kd - i)) (fun _ => kd + 1)
    (fun i jb => i * lda + jb)
    (fun i jb => (kd - jb) * ldb + (i - kd + jb)) a b
    (fun i jb h1 h2 h3 h4 => by
      try dsimp only at h3 h4 ⊢
      rw [max_le_iff] at h3
      have := offIdx_bounds (i) (jb) (n - 1) (kd)
        (lda) ((a.length : ℤ)) h1 (by omega) (by omega)
        (by omega) (by omega) (by linarith)
      exact this)
    (fun i jb h1 h2 h3 h4 => by
      try dsimp only at h3 h4 ⊢
      rw [max_le_iff] at h3
      have := offIdx_bounds (kd - jb) (i - kd + jb) (kd)
        (n - 1) (ldb) ((b.length : ℤ)) (by omega)
        (by omega) (by omega) (by omega) (by omega) (by linarith)
      constructor <;> linarith [this.1, this.2])
    (fun i jb i' jb' hd hd' he => by
      obtain ⟨a1, a2, a3, a4⟩ := hd
      obtain ⟨c1, c2, c3, c4⟩ := hd'
      try dsimp only at a3 a4 c3 c4 he
      rw [max_le_iff] at a3 c3
      have hq := quot_rem_inj (ldb) (i - kd + jb)
        (kd - jb) (i' - kd + jb') (kd - jb')
        (by omega) (by omega) (by omega) (by omega) (by linarith [he])
      have e1 : jb = jb' := by omega
      have e2 : i = i' := by omega
      rw [e1, e2])
  refine ⟨b', by rw [convDpbToLapacke_L_eq uplo hu]; exact hrun, hlen, ?_, ?_⟩
  · intro i jb hij
    rw [inBandL_iff] at hij
    exact hval i jb hij.1 hij.2.1
      (by show max 0 (kd - i) ≤ jb; rw [max_le_iff]; omega)
      (show jb < kd + 1 by omega)
  · intro t ht
    refine hframe t fun i jb h1 h2 h3 h4 => ?_
    try dsimp only at h3 h4 ⊢
    rw [max_le_iff] at h3
    exact ht i jb (inBandL_iff.mpr ⟨h1, h2, by omega, by omega, by omega⟩)

theorem convDpbToGonum_U_spec {α : Type*} (n kd lda ldb : ℤ)
    (a b : List α) (hkd : 0 ≤ kd) (ha : lapSized n kd lda a)
    (hb : clientSized n kd ldb b) :
    ∃ b', convDpbToGonum 'U' n kd a lda b ldb = some (a, b') ∧
      b'.length = b.length ∧
      (∀ i jb, inBandU n kd i jb →
        b'[(clientIdx ldb i jb).toNat]?
          = a[(lapIdx lda kd (i + jb) jb).toNat]?) ∧
      ∀ t : ℕ, (∀ i jb, inBandU n kd i jb →
          (t : ℤ) ≠ clientIdx ldb i jb) →
        b'[t]? = b[t]? := by
  obtain ⟨hlda, halen⟩ := ha
  obtain ⟨hldb, hblen⟩ := hb
  rw [max_le_iff] at hlda
  obtain ⟨b', hrun, hlen, hval, hframe⟩ := bandPairs_spec (n)
    (fun j => max 0 (kd - j)) (fun _ => kd + 1)
    (fun j ib => ib * lda + j)
    (fun j ib => (j - kd + ib) * ldb + kd - ib) a b
    (fun j ib h1 h2 h3 h4 => by
      try dsimp only at h3 h4 ⊢
      rw [max_le_iff] at h3
      have := offIdx_bounds (ib) (j) (kd) (n - 1)
        (lda) ((a.length : ℤ)) (by omega) (by omega)
        (by omega) (by omega) (by omega) (by linarith)
      exact this)
    (fun j ib h1 h2 h3 h4 => by
      try dsimp only at h3 h4 ⊢
      rw [max_le_iff] at h3
      have := offIdx_bounds (j - kd + ib) (kd - ib) (n - 1)
        (kd) (ldb) ((b.length : ℤ)) (by omega)
        (by omega) (by omega) (by omega) (by omega) (by linarith)
      constructor <;> linarith [this.1, this.2])
    (fun j ib j' ib' hd hd' he => by
      obtain ⟨a1, a2, a3, a4⟩ := hd
      obtain ⟨c1, c2, c3, c4⟩ := hd'
      try dsimp only at a3 a4 c3 c4 he
      rw [max_le_iff] at a3 c3
      have hq := quot_rem_inj (ldb) (kd - ib)
        (j - kd + ib) (kd - ib') (j' - kd + ib')
        (by omega) (by omega) (by omega) (by omega) (by linarith [he])
      have e1 : ib = ib' := by omega
      have e2 : j = j' := by omega
      rw [e1, e2])
  refine ⟨b', by rw [convDpbToGonum_U_eq]; exact hrun, hlen, ?_, ?_⟩
  · intro i jb hij
    rw [inBandU_iff] at hij
    have := hval (i + jb) (kd - jb) (by omega) (by omega)
      (by show max 0 (kd - (i + jb)) ≤ kd - jb; rw [max_le_iff]; omega)
      (show kd - jb < kd + 1 by omega)
    try dsimp only at this
    rw [show i + jb - kd + (kd - jb) = i by ring] at this
    have ex : i * ldb + kd - (kd - jb) = clientIdx ldb i jb := by
      simp only [clientIdx]; ring
    rw [ex] at this
    exact this
  · intro t ht
    refine hframe t fun j ib h1 h2 h3 h4 => ?_
    try dsimp only at h3 h4 ⊢
    rw [max_le_iff] at h3
    have hib := ht (j - kd + ib) (kd - ib)
      (inBandU_iff.mpr ⟨by omega, by omega, by omega, by omega, by omega⟩)
    simp only [clientIdx] at hib
    intro hc
    exact hib (by linarith [hc])

theorem convDpbToGonum_L_spec {α : Type*} (uplo : Char) (hu : uplo ≠ 'U')
    (n kd lda ldb : ℤ) (a b : List α) (hkd : 0 ≤ kd)
    (ha : lapSized n kd lda a) (hb : clientSized n kd ldb b) :
    ∃ b', convDpbToGonum uplo n kd a lda b ldb = some (a, b') ∧
      b'.length = b.length ∧
      (∀ i jb, inBandL n kd i jb →
        b'[(clientIdx ldb i jb).toNat]?
          = a[(lapIdx lda kd (i - kd + jb) jb).toNat]?) ∧
      ∀ t : ℕ, (∀ i jb, inBandL n kd i jb →
          (t : ℤ) ≠ clientIdx ldb i jb) →
        b'[t]? = b[t]? := by
  obtain ⟨hlda, halen⟩ := ha
  obtain ⟨hldb, hblen⟩ := hb
  rw [max_le_iff] at hlda
  obtain ⟨b', hrun, hlen, hval, hframe⟩ := bandPairs_spec (n)
    (fun _ => 0) (fun j => min (n - j) (kd + 1))
    (fun j ib => ib * lda + j)
    (fun j ib => (j + ib) * ldb + kd - ib) a b
    (fun j ib h1 h2 h3 h4 => by
      try dsimp only at h3 h4 ⊢
      rw [lt_min_iff] at h4
      have := offIdx_bounds (ib) (j) (kd) (n - 1)
        (lda) ((a.length : ℤ)) h3 (by omega) (by omega)
        (by omega) (by omega) (by linarith)
      exact this)
    (fun j ib h1 h2 h3 h4 => by
      try dsimp only at h3 h4 ⊢
      rw [lt_min_iff] at h4
      have := offIdx_bounds (j + ib) (kd - ib) (n - 1)
        (kd) (ldb) ((b.length : ℤ)) (by omega)
        (by omega) (by omega) (by omega) (by omega) (by linarith)
      constructor <;> linarith [this.1, this.2])
    (fun j ib j' ib' hd hd' he => by
      obtain ⟨a1, a2, a3, a4⟩ := hd
      obtain ⟨c1, c2, c3, c4⟩ := hd'
      try dsimp only at a3 a4 c3 c4 he
      rw [lt_min_iff] at a4 c4
      have hq := quot_rem_inj (ldb) (kd - ib) (j + ib)
        (kd - ib') (j' + ib') (by omega) (by omega) (by omega)
        (by omega) (by linarith [he])
      have e1 : ib = ib' := by omega
      have e2 : j = j' := by omega
      rw [e1, e2])
  refine ⟨b', by rw [convDpbToGonum_L_eq uplo hu]; exact hrun, hlen, ?_, ?_⟩
  · intro i jb hij
    rw [inBandL_iff] at hij
    have := hval (i - kd + jb) (kd - jb) (by omega) (by omega) (by omega)
      (by show kd - jb < min (n - (i - kd + jb)) (kd + 1)
          rw [lt_min_iff]
          omega)
    try dsimp only at this
    rw [show i - kd + jb + (kd - jb) = i by ring] at this
    have ex : i * ldb + kd - (kd - jb) = clientIdx ldb i jb := by
      simp only [clientIdx]; ring
    rw [ex] at this
    exact this
  · intro t ht
    refine hframe t fun j ib h1 h2 h3 h4 => ?_
    try dsimp only at h3 h4 ⊢
    rw [lt_min_iff] at h4
    have hib := ht (j + ib) (kd - ib)
      (inBandL_iff.mpr ⟨by omega, by omega, by omega, by omega, by omega⟩)
    simp only [clientIdx] at hib
    intro hc
    exact hib (by linarith [hc])

theorem inBand_U {n kd i jb : ℤ} : inBand 'U' n kd i jb ↔ inBandU n kd i jb := by
  rw [inBand, if_pos rfl]

theorem inBand_L {uplo : Char} (hu : uplo ≠ 'U') {n kd i jb : ℤ} :
    inBand uplo n kd i jb ↔ inBandL n kd i jb := by
  rw [inBand, if_neg hu]

theorem colOf_U {kd i jb : ℤ} : colOf 'U' kd i jb = i + jb := by
  rw [colOf, if_pos rfl]

theorem colOf_L {uplo : Char} (hu : uplo ≠ 'U') {kd i jb : ℤ} :
    colOf uplo kd i jb = i - kd + jb := by
  rw [colOf, if_neg hu]

/-- Claim C2: element-mapping postcondition of the packed converter
`DpbToColMajor`.  With `triangle = upper` ('U') it writes
`dst[kd-jb + (i+jb)*dstStride] = src[i*srcStride + jb]` for each row `i` in
`[0, n)` and in-row offset `jb` in `[0, min(n-i, kd+1))`; with the lower
selector ('L') it writes `dst[kd-jb + (i-kd+jb)*dstStride] =
src[i*srcStride + jb]` for `jb` in `[max(0, kd-i), kd+1)`; and it writes no
other destination offsets (every offset not of that form is unchanged). -/
theorem dpbToColMajor_element_mapping {α : Type*} (n kd lda ldb : ℤ)
    (a b : List α) (hkd : 0 ≤ kd) (ha : clientSized n kd lda a)
    (hb : colSized n kd ldb b) :
    (∃ b', DpbToColMajor 'U' n kd a lda b ldb = some (a, b') ∧
      (∀ i jb, inBandU n kd i jb →
        b'[(kd - jb + (i + jb) * ldb).toNat]? = a[(i * lda + jb).toNat]?) ∧
      ∀ t : ℕ, (∀ i jb, inBandU n kd i jb →
          (t : ℤ) ≠ kd - jb + (i + jb) * ldb) →
        b'[t]? = b[t]?) ∧
    (∃ b', DpbToColMajor 'L' n kd a lda b ldb = some (a, b') ∧
      (∀ i jb, inBandL n kd i jb →
        b'[(kd - jb + (i - kd + jb) * ldb).toNat]? = a[(i * lda + jb).toNat]?) ∧
      ∀ t : ℕ, (∀ i jb, inBandL n kd i jb →
          (t : ℤ) ≠ kd - jb + (i - kd + jb) * ldb) →
        b'[t]? = b[t]?) := by
  constructor
  · obtain ⟨b', h1, _, hval, hframe⟩ :=
      DpbToColMajor_U_spec n kd lda ldb a b hkd ha hb
    exact ⟨b', h1, hval, hframe⟩
  · obtain ⟨b', h1, _, hval, hframe⟩ :=
      DpbToColMajor_L_spec 'L' (by decide) n kd lda ldb a b hkd ha hb
    exact ⟨b', h1, hval, hframe⟩

theorem dpbToColMajor_element_mapping_witness :
    (0 : ℤ) ≤ 1 ∧ clientSized 3 1 2 ([1, 2, 3, 4, 5, 6] : List ℤ) ∧
    colSized 3 1 2 ([0, 0, 0, 0, 0, 0] : List ℤ) ∧
    ∃ b', DpbToColMajor 'U' 3 1 ([1, 2, 3, 4, 5, 6] : List ℤ) 2
      [0, 0, 0, 0, 0, 0] 2 = some ([1, 2, 3, 4, 5, 6], b') :=
  ⟨by decide, by decide, by decide,
    ((dpbToColMajor_element_mapping 3 1 2 2 [1, 2, 3, 4, 5, 6]
      [0, 0, 0, 0, 0, 0] (by decide) (by decide) (by decide)).1.elim
      fun b' h => ⟨b', h.1⟩)⟩

/-- Claim C6: concrete example for the band-triangular converter
(upper, `n = 6`, `kd = 2`): client-form rows
`[1,2,3],[4,5,6],[7,8,9],[10,11,12],[13,14,*],[15,*,*]` at stride 3 convert
to the library-form buffer `[*,*,3,6,9,12 | *,2,5,8,11,14 | 1,4,7,10,13,15]`
at stride 6, where the `*` slots (offsets 0, 1 and 6, holding the sentinel
`-1` here) are not among the offsets the conversion writes. -/
theorem bandtri_concrete_example :
    convDpbToLapacke 'U' 6 2
      ([1, 2, 3, 4, 5, 6, 7, 8, 9, 10, 11, 12, 13, 14, -1, 15, -1, -1] :
        List ℤ) 3 (List.replicate 18 (-1)) 6
      = some ([1, 2, 3, 4, 5, 6, 7, 8, 9, 10, 11, 12, 13, 14, -1, 15, -1, -1],
          [-1, -1, 3, 6, 9, 12, -1, 2, 5, 8, 11, 14, 1, 4, 7, 10, 13, 15]) ∧
    (0 : ℤ) ∉ lapackeDsts 'U' 6 2 6 ∧
    (1 : ℤ) ∉ lapackeDsts 'U' 6 2 6 ∧
    (6 : ℤ) ∉ lapackeDsts 'U' 6 2 6 ∧
    ∀ t : ℕ, t < 18 → ((t : ℤ) ∈ lapackeDsts 'U' 6 2 6 ∨
      ([-1, -1, 3, 6, 9, 12, -1, 2, 5, 8, 11, 14, 1, 4, 7, 10, 13, 15] :
        List ℤ)[t]? = (List.replicate 18 (-1) : List ℤ)[t]?) := by
  decide

/-- Claim C8: pivot index-shift round trip, modelled on the `Dgeqp3` wrapper
(0-based → 1-based with validity check before the native call, 1-based →
0-based after it) and the `Dpstrf` wrapper (the same 1-based → 0-based
shift).  Whenever the 0→1 shift succeeds, the 1→0 shift restores the
original vector, and conversely `toOneBased` after `toZeroBased` is the
identity wherever it succeeds. -/
theorem pivot_shift_round_trip (n : ℤ) (v w : List ℤ) :
    (jpvtToOneBased n v = some w → pivToZeroBased w = v) ∧
    (jpvtToOneBased n (pivToZeroBased v) = some w → w = v) := by
  constructor
  · intro h
    refine mapM_some_inv ?_ v w h
    intro x y hy
    split_ifs at hy with hc
    have h2 := Option.some.inj hy
    omega
  · intro h
    refine mapM_map_some_inv ?_ v w h
    intro x y hy
    split_ifs at hy with hc
    have h2 := Option.some.inj hy
    omega

theorem pivot_shift_round_trip_witness :
    jpvtToOneBased 3 [0, 1, 2] = some [1, 2, 3] ∧
    pivToZeroBased [1, 2, 3] = [0, 1, 2] :=
  ⟨by decide, (pivot_shift_round_trip 3 [0, 1, 2] [1, 2, 3]).1 (by decide)⟩

/-- Claim C10: implicit triangle-selector dispatch.  The converters never
validate the selector: any value other than `'U'` (`blas.Upper`) behaves
exactly as the lower-triangle selection, with no error, panic, or other
distinct behavior. -/
theorem uplo_dispatch {α : Type*} (uplo : Char) (hu : uplo ≠ 'U')
    (n kd lda ldb : ℤ) (a b : List α) :
    DpbToColMajor uplo n kd a lda b ldb
      = DpbToColMajor 'L' n kd a lda b ldb ∧
    DpbToRowMajor uplo n kd a lda b ldb
      = DpbToRowMajor 'L' n kd a lda b ldb ∧
    convDpbToLapacke uplo n kd a lda b ldb
      = convDpbToLapacke blasLower n kd a lda b ldb ∧
    convDpbToGonum uplo n kd a lda b ldb
      = convDpbToGonum blasLower n kd a lda b ldb := by
  refine ⟨?_, ?_, ?_, ?_⟩
  · simp only [DpbToColMajor]
    rw [if_neg hu, if_neg (show ('L' : Char) ≠ 'U' by decide)]
  · simp only [DpbToRowMajor]
    rw [if_neg hu, if_neg (show ('L' : Char) ≠ 'U' by decide)]
  · simp only [convDpbToLapacke, blasUpper, blasLower]
    rw [if_neg hu, if_neg (show ('L' : Char) ≠ 'U' by decide)]
  · simp only [convDpbToGonum, blasUpper, blasLower]
    rw [if_neg hu, if_neg (show ('L' : Char) ≠ 'U' by decide)]

theorem uplo_dispatch_witness :
    ('X' : Char) ≠ 'U' ∧
    DpbToColMajor 'X' 2 1 ([1, 2, 3, 4] : List ℤ) 2 [0, 0, 0, 0] 2
      = DpbToColMajor 'L' 2 1 ([1, 2, 3, 4] : List ℤ) 2 [0, 0, 0, 0] 2 :=
  ⟨by decide,
    (uplo_dispatch 'X' (by decide) 2 1 2 2 [1, 2, 3, 4] [0, 0, 0, 0]).1⟩

/-- Claim C1: round-trip identity.  For every `n ≥ 0`, `kd ≥ 0` (including
`kd ≥ n`), either triangle selector (any non-'U' value selects the lower
triangle), and any valid strides and adequately sized buffers, converting a
client-form band matrix to library form and back reproduces every
banded-region element of the original source buffer exactly:
`DpbToRowMajor` after `DpbToColMajor` for the packed converter, and
`convDpbToGonum` after `convDpbToLapacke` for the band-triangular
converter. -/
theorem roundtrip_identity {α : Type*} (uplo : Char) (n kd : ℤ)
    (lda ldb ldc ldbL ldcL : ℤ) (a b c bL cL : List α)
    (hkd : 0 ≤ kd)
    (ha : clientSized n kd lda a)
    (hb : colSized n kd ldb b) (hc : clientSized n kd ldc c)
    (hbL : lapSized n kd ldbL bL) (hcL : clientSized n kd ldcL cL) :
    (∃ b' c', DpbToColMajor uplo n kd a lda b ldb = some (a, b') ∧
      DpbToRowMajor uplo n kd b' ldb c ldc = some (b', c') ∧
      ∀ i jb, inBand uplo n kd i jb →
        c'[(clientIdx ldc i jb).toNat]? = a[(clientIdx lda i jb).toNat]?) ∧
    (∃ bL' cL', convDpbToLapacke uplo n kd a lda bL ldbL = some (a, bL') ∧
      convDpbToGonum uplo n kd bL' ldbL cL ldcL = some (bL', cL') ∧
      ∀ i jb, inBand uplo n kd i jb →
        cL'[(clientIdx ldcL i jb).toNat]? = a[(clientIdx lda i jb).toNat]?) := by
  by_cases hu : uplo = 'U'
  · subst hu
    constructor
    · obtain ⟨b', h1, hlen1, hval1, _⟩ :=
        DpbToColMajor_U_spec n kd lda ldb a b hkd ha hb
      obtain ⟨c', h2, _, hval2, _⟩ :=
        DpbToRowMajor_U_spec n kd ldb ldc b' c hkd
          ⟨hb.1, by rw [hlen1]; exact hb.2⟩ hc
      refine ⟨b', c', h1, h2, fun i jb hij => ?_⟩
      rw [inBand_U] at hij
      rw [hval2 i jb hij, hval1 i jb hij]
    · obtain ⟨bL', h1, hlen1, hval1, _⟩ :=
        convDpbToLapacke_U_spec n kd lda ldbL a bL hkd ha hbL
      obtain ⟨cL', h2, _, hval2, _⟩ :=
        convDpbToGonum_U_spec n kd ldbL ldcL bL' cL hkd
          ⟨hbL.1, by rw [hlen1]; exact hbL.2⟩ hcL
      refine ⟨bL', cL', h1, h2, fun i jb hij => ?_⟩
      rw [inBand_U] at hij
      rw [hval2 i jb hij, hval1 i jb hij]
  · constructor
    · obtain ⟨b', h1, hlen1, hval1, _⟩ :=
        DpbToColMajor_L_spec uplo hu n kd lda ldb a b hkd ha hb
      obtain ⟨c', h2, _, hval2, _⟩ :=
        DpbToRowMajor_L_spec uplo hu n kd ldb ldc b' c hkd
          ⟨hb.1, by rw [hlen1]; exact hb.2⟩ hc
      refine ⟨b', c', h1, h2, fun i jb hij => ?_⟩
      rw [inBand_L hu] at hij
      rw [hval2 i jb hij, hval1 i jb hij]
    · obtain ⟨bL', h1, hlen1, hval1, _⟩ :=
        convDpbToLapacke_L_spec uplo hu n kd lda ldbL a bL hkd ha hbL
      obtain ⟨cL', h2, _, hval2, _⟩ :=
        convDpbToGonum_L_spec uplo hu n kd ldbL ldcL bL' cL hkd
          ⟨hbL.1, by rw [hlen1]; exact hbL.2⟩ hcL
      refine ⟨bL', cL', h1, h2, fun i jb hij => ?_⟩
      rw [inBand_L hu] at hij
      rw [hval2 i jb hij, hval1 i jb hij]

theorem roundtrip_identity_witness :
    ((0 : ℤ) ≤ 5 ∧ clientSized 3 5 6 ([1, 2, 3, 4, 5, 6, 7, 8, 9, 10, 11, 12,
      13, 14, 15, 16, 17, 18] : List ℤ) ∧
      colSized 3 5 6 (List.replicate 18 (0 : ℤ)) ∧
      clientSized 3 5 6 (List.replicate 18 (0 : ℤ)) ∧
      lapSized 3 5 3 (List.replicate 18 (0 : ℤ)) ∧
      clientSized 3 5 6 (List.replicate 18 (0 : ℤ))) ∧
    (∃ b' c', DpbToColMajor 'L' 3 5
        ([1, 2, 3, 4, 5, 6, 7, 8, 9, 10, 11, 12, 13, 14, 15, 16, 17, 18] :
          List ℤ) 6 (List.replicate 18 0) 6 =
        some ([1, 2, 3, 4, 5, 6, 7, 8, 9, 10, 11, 12, 13, 14, 15, 16, 17, 18],
          b') ∧
      DpbToRowMajor 'L' 3 5 b' 6 (List.replicate 18 0) 6 = some (b', c') ∧
      ∀ i jb, inBand 'L' 3 5 i jb →
        c'[(clientIdx 6 i jb).toNat]? =
          ([1, 2, 3, 4, 5, 6, 7, 8, 9, 10, 11, 12, 13, 14, 15, 16, 17, 18] :
            List ℤ)[(clientIdx 6 i jb).toNat]?) :=
  ⟨⟨by decide, by decide, by decide, by decide, by decide, by decide⟩,
    (roundtrip_identity 'L' 3 5 6 6 6 3 6
      [1, 2, 3, 4, 5, 6, 7, 8, 9, 10, 11, 12, 13, 14, 15, 16, 17, 18]
      (List.replicate 18 0) (List.replicate 18 0) (List.replicate 18 0)
      (List.replicate 18 0) (by decide) (by decide) (by decide) (by decide)
      (by decide) (by decide)).1⟩

/-- Claim C9: the two forward converters realize the same transform at
transposed targets.  For either triangle selector and identical source, the
band-triangular converter places element `src[i*lda + jb]` at library
offset `(kd-jb)*ldb + j` (diagonal-offset-major), while the packed
converter places the same element at `(kd-jb) + j*ldb'` (column-major),
for the same full-matrix column `j = colOf uplo kd i jb`, at every in-band
pair. -/
theorem lapacke_colmajor_same_transform {α : Type*} (uplo : Char)
    (n kd lda ldbL ldbC : ℤ) (a bL bC : List α) (hkd : 0 ≤ kd)
    (ha : clientSized n kd lda a) (hbL : lapSized n kd ldbL bL)
    (hbC : colSized n kd ldbC bC) :
    ∃ bL' bC', convDpbToLapacke uplo n kd a lda bL ldbL = some (a, bL') ∧
      DpbToColMajor uplo n kd a lda bC ldbC = some (a, bC') ∧
      ∀ i jb, inBand uplo n kd i jb →
        bL'[(lapIdx ldbL kd (colOf uplo kd i jb) jb).toNat]?
          = a[(clientIdx lda i jb).toNat]? ∧
        bC'[(colIdx ldbC kd (colOf uplo kd i jb) jb).toNat]?
          = a[(clientIdx lda i jb).toNat]? := by
  by_cases hu : uplo = 'U'
  · subst hu
    obtain ⟨bL', h1, _, hval1, _⟩ :=
      convDpbToLapacke_U_spec n kd lda ldbL a bL hkd ha hbL
    obtain ⟨bC', h2, _, hval2, _⟩ :=
      DpbToColMajor_U_spec n kd lda ldbC a bC hkd ha hbC
    refine ⟨bL', bC', h1, h2, fun i jb hij => ?_⟩
    rw [inBand_U] at hij
    rw [colOf_U]
    exact ⟨hval1 i jb hij, hval2 i jb hij⟩
  · obtain ⟨bL', h1, _, hval1, _⟩ :=
      convDpbToLapacke_L_spec uplo hu n kd lda ldbL a bL hkd ha hbL
    obtain ⟨bC', h2, _, hval2, _⟩ :=
      DpbToColMajor_L_spec uplo hu n kd lda ldbC a bC hkd ha hbC
    refine ⟨bL', bC', h1, h2, fun i jb hij => ?_⟩
    rw [inBand_L hu] at hij
    rw [colOf_L hu]
    exact ⟨hval1 i jb hij, hval2 i jb hij⟩

theorem lapacke_colmajor_same_transform_witness :
    ((0 : ℤ) ≤ 1 ∧ clientSized 3 1 2 ([1, 2, 3, 4, 5, 6] : List ℤ) ∧
      lapSized 3 1 3 (List.replicate 6 (0 : ℤ)) ∧
      colSized 3 1 2 (List.replicate 6 (0 : ℤ))) ∧
    ∃ bL' bC', convDpbToLapacke 'U' 3 1 ([1, 2, 3, 4, 5, 6] : List ℤ) 2
        (List.replicate 6 0) 3 = some ([1, 2, 3, 4, 5, 6], bL') ∧
      DpbToColMajor 'U' 3 1 ([1, 2, 3, 4, 5, 6] : List ℤ) 2
        (List.replicate 6 0) 2 = some ([1, 2, 3, 4, 5, 6], bC') ∧
      ∀ i jb, inBand 'U' 3 1 i jb →
        bL'[(lapIdx 3 1 (colOf 'U' 1 i jb) jb).toNat]?
          = ([1, 2, 3, 4, 5, 6] : List ℤ)[(clientIdx 2 i jb).toNat]? ∧
        bC'[(colIdx 2 1 (colOf 'U' 1 i jb) jb).toNat]?
          = ([1, 2, 3, 4, 5, 6] : List ℤ)[(clientIdx 2 i jb).toNat]? :=
  ⟨⟨by decide, by decide, by decide, by decide⟩,
    lapacke_colmajor_same_transform 'U' 3 1 2 3 2 [1, 2, 3, 4, 5, 6]
      (List.replicate 6 0) (List.replicate 6 0) (by decide) (by decide)
      (by decide) (by decide)⟩

/-- Claim C3: oversized-kd safety.  For every `n ≥ 0` and `kd ≥ 0`,
including `kd ≥ n`, and either triangle selector, every loop index pair of
the converters addresses a row and a column in `[0, n-1]` and an
in-row/diagonal offset in `[0, kd]`; and under the documented buffer-size
preconditions every slice access is in bounds: each converter call returns
`some` result, never hitting the out-of-bounds (`none`, i.e. panic) branch
of the embedded indexing. -/
theorem conv_index_safety {α : Type*} (uplo : Char) (n kd : ℤ)
    (lda ldb ldbL ldc ldcL : ℤ) (a b bL c cL : List α)
    (hkd : 0 ≤ kd)
    (ha : clientSized n kd lda a) (hb : colSized n kd ldb b)
    (hbL : lapSized n kd ldbL bL)
    (hc : clientSized n kd ldc c) (hcL : clientSized n kd ldcL cL) :
    (∀ i jb, inBand uplo n kd i jb →
      0 ≤ i ∧ i < n ∧ 0 ≤ jb ∧ jb ≤ kd ∧
      0 ≤ colOf uplo kd i jb ∧ colOf uplo kd i jb < n) ∧
    (DpbToColMajor uplo n kd a lda b ldb).isSome = true ∧
    (DpbToRowMajor uplo n kd b ldb c ldc).isSome = true ∧
    (convDpbToLapacke uplo n kd a lda bL ldbL).isSome = true ∧
    (convDpbToGonum uplo n kd bL ldbL cL ldcL).isSome = true := by
  by_cases hu : uplo = 'U'
  · subst hu
    refine ⟨?_, ?_, ?_, ?_, ?_⟩
    · intro i jb hij
      rw [inBand_U, inBandU_iff] at hij
      rw [colOf_U]
      omega
    · obtain ⟨b', h, _⟩ := DpbToColMajor_U_spec n kd lda ldb a b hkd ha hb
      rw [h]
      rfl
    · obtain ⟨c', h, _⟩ := DpbToRowMajor_U_spec n kd ldb ldc b c hkd hb hc
      rw [h]
      rfl
    · obtain ⟨bL', h, _⟩ :=
        convDpbToLapacke_U_spec n kd lda ldbL a bL hkd ha hbL
      rw [h]
      rfl
    · obtain ⟨cL', h, _⟩ :=
        convDpbToGonum_U_spec n kd ldbL ldcL bL cL hkd hbL hcL
      rw [h]
      rfl
  · refine ⟨?_, ?_, ?_, ?_, ?_⟩
    · intro i jb hij
      rw [inBand_L hu, inBandL_iff] at hij
      rw [colOf_L hu]
      omega
    · obtain ⟨b', h, _⟩ :=
        DpbToColMajor_L_spec uplo hu n kd lda ldb a b hkd ha hb
      rw [h]
      rfl
    · obtain ⟨c', h, _⟩ :=
        DpbToRowMajor_L_spec uplo hu n kd ldb ldc b c hkd hb hc
      rw [h]
      rfl
    · obtain ⟨bL', h, _⟩ :=
        convDpbToLapacke_L_spec uplo hu n kd lda ldbL a bL hkd ha hbL
      rw [h]
      rfl
    · obtain ⟨cL', h, _⟩ :=
        convDpbToGonum_L_spec uplo hu n kd ldbL ldcL bL cL hkd hbL hcL
      rw [h]
      rfl

theorem conv_index_safety_witness :
    ((0 : ℤ) ≤ 7 ∧ clientSized 3 7 8 (List.replicate 24 (1 : ℤ)) ∧
      colSized 3 7 8 (List.replicate 24 (2 : ℤ)) ∧
      lapSized 3 7 3 (List.replicate 24 (3 : ℤ)) ∧
      clientSized 3 7 8 (List.replicate 24 (4 : ℤ)) ∧
      clientSized 3 7 8 (List.replicate 24 (5 : ℤ))) ∧
    (DpbToColMajor 'U' 3 7 (List.replicate 24 (1 : ℤ)) 8
      (List.replicate 24 2) 8).isSome = true :=
  ⟨⟨by decide, by decide, by decide, by decide, by decide, by decide⟩,
    (conv_index_safety 'U' 3 7 8 8 3 8 8 (List.replicate 24 1)
      (List.replicate 24 2) (List.replicate 24 3) (List.replicate 24 4)
      (List.replicate 24 5) (by decide) (by decide) (by decide) (by decide)
      (by decide) (by decide)).2.1⟩

/-- Claim C5: frame property.  For every input, a converter never modifies
its source buffer: whenever a call returns at all (yields `some` final
state), the source component of the final state equals the initial source,
with no size preconditions.  Moreover, under the documented buffer sizes,
only banded-region offsets of the destination are written: every
destination slot not addressed by an in-band index pair retains the value
it held before the call. -/
theorem conv_frame_property {α : Type*} (uplo : Char) (n kd : ℤ)
    (lda ldb ldbL ldc ldcL : ℤ) (a b bL w wL : List α)
    (hkd : 0 ≤ kd)
    (ha : clientSized n kd lda a) (hb : colSized n kd ldb b)
    (hbL : lapSized n kd ldbL bL)
    (hc : clientSized n kd ldc w) (hcL : clientSized n kd ldcL wL) :
    (∀ (uplo' : Char) (n' kd' lda' ldb' : ℤ) (x y : List α)
        (st : List α × List α),
      (DpbToColMajor uplo' n' kd' x lda' y ldb' = some st → st.1 = x) ∧
      (DpbToRowMajor uplo' n' kd' x lda' y ldb' = some st → st.1 = x) ∧
      (convDpbToLapacke uplo' n' kd' x lda' y ldb' = some st → st.1 = x) ∧
      (convDpbToGonum uplo' n' kd' x lda' y ldb' = some st → st.1 = x)) ∧
    (∃ b', DpbToColMajor uplo n kd a lda b ldb = some (a, b') ∧
      ∀ t : ℕ, (∀ i jb, inBand uplo n kd i jb →
        (t : ℤ) ≠ colIdx ldb kd (colOf uplo kd i jb) jb) → b'[t]? = b[t]?) ∧
    (∃ w', DpbToRowMajor uplo n kd b ldb w ldc = some (b, w') ∧
      ∀ t : ℕ, (∀ i jb, inBand uplo n kd i jb →
        (t : ℤ) ≠ clientIdx ldc i jb) → w'[t]? = w[t]?) ∧
    (∃ bL', convDpbToLapacke uplo n kd a lda bL ldbL = some (a, bL') ∧
      ∀ t : ℕ, (∀ i jb, inBand uplo n kd i jb →
        (t : ℤ) ≠ lapIdx ldbL kd (colOf uplo kd i jb) jb) →
          bL'[t]? = bL[t]?) ∧
    (∃ wL', convDpbToGonum uplo n kd bL ldbL wL ldcL = some (bL, wL') ∧
      ∀ t : ℕ, (∀ i jb, inBand uplo n kd i jb →
        (t : ℤ) ≠ clientIdx ldcL i jb) → wL'[t]? = wL[t]?) := by
  refine ⟨?_, ?_, ?_, ?_, ?_⟩
  · intro uplo' n' kd' lda' ldb' x y st
    refine ⟨fun h => ?_, fun h => ?_, fun h => ?_, fun h => ?_⟩
    · by_cases hu : uplo' = 'U'
      · subst hu
        rw [DpbToColMajor_U_eq] at h
        exact runCopies_fst _ _ _ h
      · rw [DpbToColMajor_L_eq uplo' hu] at h
        exact runCopies_fst _ _ _ h
    · by_cases hu : uplo' = 'U'
      · subst hu
        rw [DpbToRowMajor_U_eq] at h
        exact runCopies_fst _ _ _ h
      · rw [DpbToRowMajor_L_eq uplo' hu] at h
        exact runCopies_fst _ _ _ h
    · by_cases hu : uplo' = 'U'
      · subst hu
        rw [convDpbToLapacke_U_eq] at h
        exact runCopies_fst _ _ _ h
      · rw [convDpbToLapacke_L_eq uplo' hu] at h
        exact runCopies_fst _ _ _ h
    · by_cases hu : uplo' = 'U'
      · subst hu
        rw [convDpbToGonum_U_eq] at h
        exact runCopies_fst _ _ _ h
      · rw [convDpbToGonum_L_eq uplo' hu] at h
        exact runCopies_fst _ _ _ h
  · by_cases hu : uplo = 'U'
    · subst hu
      obtain ⟨b', h, _, _, hframe⟩ :=
        DpbToColMajor_U_spec n kd lda ldb a b hkd ha hb
      refine ⟨b', h, fun t ht => hframe t fun i jb hij => ?_⟩
      have := ht i jb (inBand_U.mpr hij)
      rwa [colOf_U] at this
    · obtain ⟨b', h, _, _, hframe⟩ :=
        DpbToColMajor_L_spec uplo hu n kd lda ldb a b hkd ha hb
      refine ⟨b', h, fun t ht => hframe t fun i jb hij => ?_⟩
      have := ht i jb ((inBand_L hu).mpr hij)
      rwa [colOf_L hu] at this
  · by_cases hu : uplo = 'U'
    · subst hu
      obtain ⟨w', h, _, _, hframe⟩ :=
        DpbToRowMajor_U_spec n kd ldb ldc b w hkd hb hc
      refine ⟨w', h, fun t ht => hframe t fun i jb hij => ?_⟩
      exact ht i jb (inBand_U.mpr hij)
    · obtain ⟨w', h, _, _, hframe⟩ :=
        DpbToRowMajor_L_spec uplo hu n kd ldb ldc b w hkd hb hc
      refine ⟨w', h, fun t ht => hframe t fun i jb hij => ?_⟩
      exact ht i jb ((inBand_L hu).mpr hij)
  · by_cases hu : uplo = 'U'
    · subst hu
      obtain ⟨bL', h, _, _, hframe⟩ :=
        convDpbToLapacke_U_spec n kd lda ldbL a bL hkd ha hbL
      refine ⟨bL', h, fun t ht => hframe t fun i jb hij => ?_⟩
      have := ht i jb (inBand_U.mpr hij)
      rwa [colOf_U] at this
    · obtain ⟨bL', h, _, _, hframe⟩ :=
        convDpbToLapacke_L_spec uplo hu n kd lda ldbL a bL hkd ha hbL
      refine ⟨bL', h, fun t ht => hframe t fun i jb hij => ?_⟩
      have := ht i jb ((inBand_L hu).mpr hij)
      rwa [colOf_L hu] at this
  · by_cases hu : uplo = 'U'
    · subst hu
      obtain ⟨wL', h, _, _, hframe⟩ :=
        convDpbToGonum_U_spec n kd ldbL ldcL bL wL hkd hbL hcL
      refine ⟨wL', h, fun t ht => hframe t fun i jb hij => ?_⟩
      exact ht i jb (inBand_U.mpr hij)
    · obtain ⟨wL', h, _, _, hframe⟩ :=
        convDpbToGonum_L_spec uplo hu n kd ldbL ldcL bL wL hkd hbL hcL
      refine ⟨wL', h, fun t ht => hframe t fun i jb hij => ?_⟩
      exact ht i jb ((inBand_L hu).mpr hij)

theorem conv_frame_property_witness :
    ((0 : ℤ) ≤ 1 ∧ clientSized 3 1 2 ([1, 2, 3, 4, 5, 6] : List ℤ) ∧
      colSized 3 1 2 (List.replicate 6 (7 : ℤ)) ∧
      lapSized 3 1 3 (List.replicate 6 (8 : ℤ)) ∧
      clientSized 3 1 2 (List.replicate 6 (9 : ℤ))) ∧
    ∃ b', DpbToColMajor 'U' 3 1 ([1, 2, 3, 4, 5, 6] : List ℤ) 2
        (List.replicate 6 7) 2 = some ([1, 2, 3, 4, 5, 6], b') ∧
      ∀ t : ℕ, (∀ i jb, inBand 'U' 3 1 i jb →
        (t : ℤ) ≠ colIdx 2 1 (colOf 'U' 1 i jb) jb) →
          b'[t]? = (List.replicate 6 (7 : ℤ))[t]? :=
  ⟨⟨by decide, by decide, by decide, by decide, by decide⟩,
    (conv_frame_property 'U' 3 1 2 2 3 2 2 [1, 2, 3, 4, 5, 6]
      (List.replicate 6 7) (List.replicate 6 8) (List.replicate 6 9)
      (List.replicate 6 9) (by decide) (by decide) (by decide) (by decide)
      (by decide) (by decide)).2.1⟩

/-- Claim C4, counterexample: for `convDpbToLapacke` with the upper
selector, `n = 2`, `kd = 1`, `ldb = 2`, the call writes exactly the 3
distinct destination offsets `[2, 1, 3]` (offset 0 keeps its old value),
while the claimed count `n + 2*kd*n - kd*(kd+1)` evaluates to `4 ≠ 3`:
the formula counts the whole symmetric band, not one triangle. -/
theorem write_set_cardinality_counterexample :
    lapackeDsts 'U' 2 1 2 = [2, 1, 3] ∧
    (lapackeDsts 'U' 2 1 2).dedup.length = 3 ∧
    convDpbToLapacke 'U' 2 1 ([1, 2, 3, 4] : List ℤ) 2 [9, 9, 9, 9] 2
      = some ([1, 2, 3, 4], [9, 2, 1, 3]) ∧
    (∀ t : ℕ, t < 4 → ((t : ℤ) ∈ lapackeDsts 'U' 2 1 2 ∨
      ([9, 2, 1, 3] : List ℤ)[t]? = ([9, 9, 9, 9] : List ℤ)[t]?)) ∧
    (2 : ℤ) + 2 * 1 * 2 - 1 * (1 + 1) = 4 ∧ (3 : ℤ) ≠ 4 := by
  decide

/-- Claim C4, amended: for every triangle selector, `n ≥ 0` and `kd ≥ 0`
(with valid strides), the set of destination offsets written by one
conversion call is duplicate-free and has exactly the *triangle's* band
element count `triBandCount n kd = ∑ i in [0,n), min (n-i) (kd+1)`
(equivalently `2·count = (m+1)·(2n−m)` with `m = min kd (n-1)`), and
contains no offset outside the band; offsets outside the write set are
untouched by the call.  The claimed formula `n + 2*kd*n - kd*(kd+1)` is
the full symmetric band count, not the written count. -/
theorem conv_write_set_cardinality (uplo : Char) (n kd ldb ldbL : ℤ)
    (hn : 0 ≤ n) (hkd : 0 ≤ kd) (hldb : kd + 1 ≤ ldb)
    (hldbL : max 1 n ≤ ldbL) :
    ((colMajorDsts uplo n kd ldb).Nodup ∧
      ((colMajorDsts uplo n kd ldb).length : ℤ) = triBandCount n kd ∧
      ∀ d ∈ colMajorDsts uplo n kd ldb, ∃ i jb, inBand uplo n kd i jb ∧
        d = colIdx ldb kd (colOf uplo kd i jb) jb) ∧
    ((lapackeDsts uplo n kd ldbL).Nodup ∧
      ((lapackeDsts uplo n kd ldbL).length : ℤ) = triBandCount n kd ∧
      ∀ d ∈ lapackeDsts uplo n kd ldbL, ∃ i jb, inBand uplo n kd i jb ∧
        d = lapIdx ldbL kd (colOf uplo kd i jb) jb) ∧
    2 * triBandCount n kd
      = (min kd (n - 1) + 1) * (2 * n - min kd (n - 1)) ∧
    (∀ (lda : ℤ) (a b : List ℤ), clientSized n kd lda a →
      colSized n kd ldb b →
      ∃ b', DpbToColMajor uplo n kd a lda b ldb = some (a, b') ∧
        ∀ t : ℕ, (t : ℤ) ∉ colMajorDsts uplo n kd ldb → b'[t]? = b[t]?) ∧
    (∀ (lda : ℤ) (a b : List ℤ), clientSized n kd lda a →
      lapSized n kd ldbL b →
      ∃ b', convDpbToLapacke uplo n kd a lda b ldbL = some (a, b') ∧
        ∀ t : ℕ, (t : ℤ) ∉ lapackeDsts uplo n kd ldbL → b'[t]? = b[t]?) := by
  by_cases hu : uplo = 'U'
  · subst hu
    refine ⟨⟨colMajorDsts_U_nodup hkd hldb, colMajorDsts_U_length hn hkd,
        ?_⟩,
      ⟨lapackeDsts_U_nodup hkd hldbL, lapackeDsts_U_length hn hkd, ?_⟩,
      triBandCount_closed n kd hn hkd, ?_, ?_⟩
    · intro d hd
      obtain ⟨i, jb, hij, he⟩ := mem_colMajorDsts_U.mp hd
      exact ⟨i, jb, inBand_U.mpr hij, by rw [colOf_U, colIdx, he]⟩
    · intro d hd
      obtain ⟨i, jb, hij, he⟩ := mem_lapackeDsts_U.mp hd
      exact ⟨i, jb, inBand_U.mpr hij, by rw [colOf_U, lapIdx, he]⟩
    · intro lda a b ha hb
      obtain ⟨b', h, _, _, hframe⟩ :=
        DpbToColMajor_U_spec n kd lda ldb a b hkd ha hb
      refine ⟨b', h, fun t ht => hframe t fun i jb hij heq => ?_⟩
      exact ht (mem_colMajorDsts_U.mpr ⟨i, jb, hij, heq⟩)
    · intro lda a b ha hb
      obtain ⟨b', h, _, _, hframe⟩ :=
        convDpbToLapacke_U_spec n kd lda ldbL a b hkd ha hb
      refine ⟨b', h, fun t ht => hframe t fun i jb hij heq => ?_⟩
      exact ht (mem_lapackeDsts_U.mpr ⟨i, jb, hij, heq⟩)
  · refine ⟨⟨colMajorDsts_L_nodup hu hkd hldb,
        colMajorDsts_L_length hu hn hkd, ?_⟩,
      ⟨lapackeDsts_L_nodup hu hkd hldbL, lapackeDsts_L_length hu hn hkd, ?_⟩,
      triBandCount_closed n kd hn hkd, ?_, ?_⟩
    · intro d hd
      obtain ⟨i, jb, hij, he⟩ := (mem_colMajorDsts_L hu).mp hd
      exact ⟨i, jb, (inBand_L hu).mpr hij, by rw [colOf_L hu, colIdx, he]⟩
    · intro d hd
      obtain ⟨i, jb, hij, he⟩ := (mem_lapackeDsts_L hu).mp hd
      exact ⟨i, jb, (inBand_L hu).mpr hij, by rw [colOf_L hu, lapIdx, he]⟩
    · intro lda a b ha hb
      obtain ⟨b', h, _, _, hframe⟩ :=
        DpbToColMajor_L_spec uplo hu n kd lda ldb a b hkd ha hb
      refine ⟨b', h, fun t ht => hframe t fun i jb hij heq => ?_⟩
      exact ht ((mem_colMajorDsts_L hu).mpr ⟨i, jb, hij, heq⟩)
    · intro lda a b ha hb
      obtain ⟨b', h, _, _, hframe⟩ :=
        convDpbToLapacke_L_spec uplo hu n kd lda ldbL a b hkd ha hb
      refine ⟨b', h, fun t ht => hframe t fun i jb hij heq => ?_⟩
      exact ht ((mem_lapackeDsts_L hu).mpr ⟨i, jb, hij, heq⟩)

theorem conv_write_set_cardinality_witness :
    ((0 : ℤ) ≤ 2 ∧ (0 : ℤ) ≤ 1 ∧ (1 : ℤ) + 1 ≤ 2 ∧ max 1 2 ≤ (2 : ℤ)) ∧
    (lapackeDsts 'U' 2 1 2).Nodup ∧
    ((lapackeDsts 'U' 2 1 2).length : ℤ) = triBandCount 2 1 :=
  ⟨⟨by decide, by decide, by decide, by decide⟩,
    ((conv_write_set_cardinality 'U' 2 1 2 2 (by decide) (by decide)
      (by decide) (by decide)).2.1).1,
    ((conv_write_set_cardinality 'U' 2 1 2 2 (by decide) (by decide)
      (by decide) (by decide)).2.1).2.1⟩

/-- Claim C7: degenerate cases.  A call with `n = 0` performs no writes at
all — every converter returns its buffers unchanged, for any selector,
`kd` and strides.  A call with `kd = 0` copies exactly the `n`
main-diagonal elements: element `i` of the diagonal is read at the source's
offset for row `i` and written at the destination's offset for row/column
`i` (coinciding positions whenever the corresponding strides coincide),
and all other destination offsets are untouched. -/
theorem conv_degenerate_cases {α : Type*} :
    (∀ (uplo : Char) (kd lda ldb : ℤ) (a b : List α),
      DpbToColMajor uplo 0 kd a lda b ldb = some (a, b) ∧
      DpbToRowMajor uplo 0 kd a lda b ldb = some (a, b) ∧
      convDpbToLapacke uplo 0 kd a lda b ldb = some (a, b) ∧
      convDpbToGonum uplo 0 kd a lda b ldb = some (a, b)) ∧
    (∀ (uplo : Char) (n lda ldb : ℤ) (a b : List α), 0 ≤ n →
      clientSized n 0 lda a → colSized n 0 ldb b →
      (∃ b', DpbToColMajor uplo n 0 a lda b ldb = some (a, b') ∧
        (∀ i, 0 ≤ i → i < n →
          b'[(i * ldb).toNat]? = a[(i * lda).toNat]?) ∧
        ∀ t : ℕ, (∀ i, 0 ≤ i → i < n → (t : ℤ) ≠ i * ldb) →
          b'[t]? = b[t]?) ∧
      (∃ b', DpbToRowMajor uplo n 0 a lda b ldb = some (a, b') ∧
        (∀ i, 0 ≤ i → i < n →
          b'[(i * ldb).toNat]? = a[(i * lda).toNat]?) ∧
        ∀ t : ℕ, (∀ i, 0 ≤ i → i < n → (t : ℤ) ≠ i * ldb) →
          b'[t]? = b[t]?)) ∧
    (∀ (uplo : Char) (n lda ldb : ℤ) (a b : List α), 0 ≤ n →
      clientSized n 0 lda a → lapSized n 0 ldb b →
      ∃ b', convDpbToLapacke uplo n 0 a lda b ldb = some (a, b') ∧
        (∀ i : ℤ, 0 ≤ i → i < n → b'[i.toNat]? = a[(i * lda).toNat]?) ∧
        ∀ t : ℕ, (∀ i : ℤ, 0 ≤ i → i < n → (t : ℤ) ≠ i) →
          b'[t]? = b[t]?) ∧
    (∀ (uplo : Char) (n lda ldb : ℤ) (a b : List α), 0 ≤ n →
      lapSized n 0 lda a → clientSized n 0 ldb b →
      ∃ b', convDpbToGonum uplo n 0 a lda b ldb = some (a, b') ∧
        (∀ i, 0 ≤ i → i < n → b'[(i * ldb).toNat]? = a[i.toNat]?) ∧
        ∀ t : ℕ, (∀ i, 0 ≤ i → i < n → (t : ℤ) ≠ i * ldb) →
          b'[t]? = b[t]?) := by
  refine ⟨?_, ?_, ?_, ?_⟩
  · intro uplo kd lda ldb a b
    exact ⟨DpbToColMajor_nzero uplo kd lda ldb a b,
      DpbToRowMajor_nzero uplo kd lda ldb a b,
      convDpbToLapacke_nzero uplo kd lda ldb a b,
      convDpbToGonum_nzero uplo kd lda ldb a b⟩
  · intro uplo n lda ldb a b hn ha hb
    by_cases hu : uplo = 'U'
    · subst hu
      constructor
      · obtain ⟨b', h, _, hval, hframe⟩ :=
          DpbToColMajor_U_spec n 0 lda ldb a b le_rfl ha hb
        refine ⟨b', h, fun i h1 h2 => ?_, fun t ht => ?_⟩
        · have := hval i 0 (inBandU_iff.mpr
            ⟨h1, h2, le_rfl, le_rfl, by omega⟩)
          rwa [show colIdx ldb 0 (i + 0) 0 = i * ldb from
            by rw [colIdx]; ring, show clientIdx lda i 0 = i * lda from
            by rw [clientIdx]; ring] at this
        · refine hframe t fun i jb hij => ?_
          rw [inBandU_iff] at hij
          have hjb : jb = 0 := by omega
          subst hjb
          rw [show colIdx ldb 0 (i + 0) 0 = i * ldb from by rw [colIdx]; ring]
          exact ht i (by omega) (by omega)
      · obtain ⟨b', h, _, hval, hframe⟩ :=
          DpbToRowMajor_U_spec n 0 lda ldb a b le_rfl ha hb
        refine ⟨b', h, fun i h1 h2 => ?_, fun t ht => ?_⟩
        · have := hval i 0 (inBandU_iff.mpr
            ⟨h1, h2, le_rfl, le_rfl, by omega⟩)
          rwa [show clientIdx ldb i 0 = i * ldb from by rw [clientIdx]; ring,
            show colIdx lda 0 (i + 0) 0 = i * lda from
              by rw [colIdx]; ring] at this
        · refine hframe t fun i jb hij => ?_
          rw [inBandU_iff] at hij
          have hjb : jb = 0 := by omega
          subst hjb
          rw [show clientIdx ldb i 0 = i * ldb from by rw [clientIdx]; ring]
          exact ht i (by omega) (by omega)
    · constructor
      · obtain ⟨b', h, _, hval, hframe⟩ :=
          DpbToColMajor_L_spec uplo hu n 0 lda ldb a b le_rfl ha hb
        refine ⟨b', h, fun i h1 h2 => ?_, fun t ht => ?_⟩
        · have := hval i 0 (inBandL_iff.mpr
            ⟨h1, h2, le_rfl, le_rfl, by omega⟩)
          rwa [show colIdx ldb 0 (i - 0 + 0) 0 = i * ldb from
            by rw [colIdx]; ring, show clientIdx lda i 0 = i * lda from
            by rw [clientIdx]; ring] at this
        · refine hframe t fun i jb hij => ?_
          rw [inBandL_iff] at hij
          have hjb : jb = 0 := by omega
          subst hjb
          rw [show colIdx ldb 0 (i - 0 + 0) 0 = i * ldb from
            by rw [colIdx]; ring]
          exact ht i (by omega) (by omega)
      · obtain ⟨b', h, _, hval, hframe⟩ :=
          DpbToRowMajor_L_spec uplo hu n 0 lda ldb a b le_rfl ha hb
        refine ⟨b', h, fun i h1 h2 => ?_, fun t ht => ?_⟩
        · have := hval i 0 (inBandL_iff.mpr
            ⟨h1, h2, le_rfl, le_rfl, by omega⟩)
          rwa [show clientIdx ldb i 0 = i * ldb from by rw [clientIdx]; ring,
            show colIdx lda 0 (i - 0 + 0) 0 = i * lda from
              by rw [colIdx]; ring] at this
        · refine hframe t fun i jb hij => ?_
          rw [inBandL_iff] at hij
          have hjb : jb = 0 := by omega
          subst hjb
          rw [show clientIdx ldb i 0 = i * ldb from by rw [clientIdx]; ring]
          exact ht i (by omega) (by omega)
  · intro uplo n lda ldb a b hn ha hb
    by_cases hu : uplo = 'U'
    · subst hu
      obtain ⟨b', h, _, hval, hframe⟩ :=
        convDpbToLapacke_U_spec n 0 lda ldb a b le_rfl ha hb
      refine ⟨b', h, fun i h1 h2 => ?_, fun t ht => ?_⟩
      · have := hval i 0 (inBandU_iff.mpr
          ⟨h1, h2, le_rfl, le_rfl, by omega⟩)
        rwa [show lapIdx ldb 0 (i + 0) 0 = i from by rw [lapIdx]; ring,
          show clientIdx lda i 0 = i * lda from
            by rw [clientIdx]; ring] at this
      · refine hframe t fun i jb hij => ?_
        rw [inBandU_iff] at hij
        have hjb : jb = 0 := by omega
        subst hjb
        rw [show lapIdx ldb 0 (i + 0) 0 = i from by rw [lapIdx]; ring]
        exact ht i (by omega) (by omega)
    · obtain ⟨b', h, _, hval, hframe⟩ :=
        convDpbToLapacke_L_spec uplo hu n 0 lda ldb a b le_rfl ha hb
      refine ⟨b', h, fun i h1 h2 => ?_, fun t ht => ?_⟩
      · have := hval i 0 (inBandL_iff.mpr
          ⟨h1, h2, le_rfl, le_rfl, by omega⟩)
        rwa [show lapIdx ldb 0 (i - 0 + 0) 0 = i from by rw [lapIdx]; ring,
          show clientIdx lda i 0 = i * lda from
            by rw [clientIdx]; ring] at this
      · refine hframe t fun i jb hij => ?_
        rw [inBandL_iff] at hij
        have hjb : jb = 0 := by omega
        subst hjb
        rw [show lapIdx ldb 0 (i - 0 + 0) 0 = i from by rw [lapIdx]; ring]
        exact ht i (by omega) (by omega)
  · intro uplo n lda ldb a b hn ha hb
    by_cases hu : uplo = 'U'
    · subst hu
      obtain ⟨b', h, _, hval, hframe⟩ :=
        convDpbToGonum_U_spec n 0 lda ldb a b le_rfl ha hb
      refine ⟨b', h, fun i h1 h2 => ?_, fun t ht => ?_⟩
      · have := hval i 0 (inBandU_iff.mpr
          ⟨h1, h2, le_rfl, le_rfl, by omega⟩)
        rwa [show clientIdx ldb i 0 = i * ldb from by rw [clientIdx]; ring,
          show lapIdx lda 0 (i + 0) 0 = i from by rw [lapIdx]; ring] at this
      · refine hframe t fun i jb hij => ?_
        rw [inBandU_iff] at hij
        have hjb : jb = 0 := by omega
        subst hjb
        rw [show clientIdx ldb i 0 = i * ldb from by rw [clientIdx]; ring]
        exact ht i (by omega) (by omega)
    · obtain ⟨b', h, _, hval, hframe⟩ :=
        convDpbToGonum_L_spec uplo hu n 0 lda ldb a b le_rfl ha hb
      refine ⟨b', h, fun i h1 h2 => ?_, fun t ht => ?_⟩
      · have := hval i 0 (inBandL_iff.mpr
          ⟨h1, h2, le_rfl, le_rfl, by omega⟩)
        rwa [show clientIdx ldb i 0 = i * ldb from by rw [clientIdx]; ring,
          show lapIdx lda 0 (i - 0 + 0) 0 = i from
            by rw [lapIdx]; ring] at this
      · refine hframe t fun i jb hij => ?_
        rw [inBandL_iff] at hij
        have hjb : jb = 0 := by omega
        subst hjb
        rw [show clientIdx ldb i 0 = i * ldb from by rw [clientIdx]; ring]
        exact ht i (by omega) (by omega)

theorem conv_degenerate_cases_witness :
    DpbToColMajor 'L' 0 3 ([1, 2] : List ℤ) 4 [5, 6] 5 = some ([1, 2], [5, 6]) ∧
    ((0 : ℤ) ≤ 2 ∧ clientSized 2 0 1 ([10, 20] : List ℤ) ∧
      lapSized 2 0 2 ([0, 0] : List ℤ)) ∧
    ∃ b', convDpbToLapacke 'U' 2 0 ([10, 20] : List ℤ) 1 [0, 0] 2
      = some ([10, 20], b') :=
  ⟨((conv_degenerate_cases (α := ℤ)).1 'L' 3 4 5 [1, 2] [5, 6]).1,
    ⟨by decide, by decide, by decide⟩,
    (((conv_degenerate_cases (α := ℤ)).2.2.1 'U' 2 1 2 [10, 20] [0, 0]
      (by decide) (by decide) (by decide)).elim fun b' h => ⟨b', h.1⟩)⟩

end Netlib
